import Mathlib

/-!
Verification development for the `python_omgidl` repository.

The definitions below are a shallow embedding of the repository's Python
sources into Lean:

* `omgidl_serialization/headers.py` — XCDR2 delimiter / member-id headers;
* `omgidl_serialization/message_reader.py` — the CDR message reader;
* `omgidl_parser/parse.py` — primitive-spelling normalization, scoped-name
  resolution (`resolve_types`) and constant evaluation of the IDL parser.

Machine integers are modelled as `Nat` with explicit `% 2 ^ w` where the
Python code masks or packs fixed-width values; byte buffers are `List Nat`
(each entry a byte value).  Fallible Python code (raising `ValueError`,
`struct.error`, `IndexError`, ...) is modelled with `Option`/`Except`.

Parts of the package that the reader imports but that are not part of the
source tree (`message_writer.py`, `deserialization_info_cache.py`,
`constants.py`) are modelled from the specification; each such definition
carries a doc comment starting with `Modelled from the spec:`.
-/

/-- Byte order selected by the `fmt_prefix` string of the Python code
(`"<"` for little endian, `">"` for big endian). -/
inductive Endian where
  | le
  | be
deriving DecidableEq

/-- Byte buffers: a list of byte values (each `< 256` for well-formed data). -/
abbrev Bytes := List Nat

/-- Value of a little-endian byte list. -/
def leValue (bs : Bytes) : Nat :=
  bs.foldr (fun b acc => b + 256 * acc) 0

/-- Little-endian byte list of width `w` for value `v` (truncating to `w` bytes). -/
def natToBytesLE : Nat → Nat → Bytes
  | 0, _ => []
  | w + 1, v => (v % 256) :: natToBytesLE w (v / 256)

/-- Put a little-endian byte list into wire order for endianness `e`. -/
def ordBytes (e : Endian) (bs : Bytes) : Bytes :=
  match e with
  | .le => bs
  | .be => bs.reverse

/-- Bytes written by `struct.pack` for an unsigned `w`-byte integer. -/
def packNat (e : Endian) (w v : Nat) : Bytes :=
  ordBytes e (natToBytesLE w v)

/-- Semantics of `struct.unpack_from` reading `n` raw bytes at `off`:
fails (raises) when fewer than `n` bytes remain. -/
def readBytesAt (view : Bytes) (off n : Nat) : Option Bytes :=
  if off + n ≤ view.length then some ((view.drop off).take n) else none

/-- `struct.unpack_from` of an unsigned `w`-byte integer at `off`. -/
def unpackNat (e : Endian) (view : Bytes) (off w : Nat) : Option Nat :=
  (readBytesAt view off w).map (fun bs => leValue (ordBytes e bs))

/-- Semantics of `struct.pack_into` writing `data` over `buffer` at `off`:
fails (raises `struct.error`) when the write does not fit. -/
def packInto (buffer : Bytes) (off : Nat) (data : Bytes) : Option Bytes :=
  if off + data.length ≤ buffer.length then
    some (buffer.take off ++ data ++ buffer.drop (off + data.length))
  else none

/-- `struct.pack_into` of an unsigned `w`-byte integer; out-of-range values
are rejected, as `struct.pack_into` raises on them. -/
def packNatInto (e : Endian) (buffer : Bytes) (off w v : Nat) : Option Bytes :=
  if v < 256 ^ w then packInto buffer off (packNat e w v) else none

/-- Python slice `view[off : off + n]` (truncates silently, never raises). -/
def sliceBytes (view : Bytes) (off n : Nat) : Bytes :=
  (view.drop off).take n

/-- Embedding of `_padding` from `headers.py` (identical to the `_padding`
the reader imports from `message_writer`): distance from `offset` to the
next offset aligned to `byte_width` relative to origin 4. -/
def cdrPadding (offset byteWidth : Nat) : Nat :=
  let alignment := (offset - 4) % byteWidth
  if alignment = 0 then 0 else byteWidth - alignment

/-- PID marking the extended (id + size out of line) member-header form. -/
def EXTENDED_PID : Nat := 0x3F01

/-- PID terminating a member list. -/
def SENTINEL_PID : Nat := 0x3F02

/-- Embedding of `read_delimiter_header`: a 32-bit length, returning
`(size, offset + 4)`. -/
def read_delimiter_header (view : Bytes) (offset : Nat) (e : Endian) :
    Option (Nat × Nat) :=
  (unpackNat e view offset 4).map (fun size => (size, offset + 4))

/-- Embedding of `write_delimiter_header`. -/
def write_delimiter_header (buffer : Bytes) (offset : Nat) (e : Endian)
    (size : Nat) : Option (Bytes × Nat) :=
  (packNatInto e buffer offset 4 size).map (fun b => (b, offset + 4))

/-- Embedding of `read_member_header` from `headers.py`.  Returns
`(member_id?, object_size, must_understand, new_offset)`; the member id is
`none` exactly when the sentinel PID was read.  The Python bit operations
`id_header & 0x3FFF` and `id_header & 0x4000` on the 16-bit header are
rendered as `% 2 ^ 14` and bit-14 extraction `(· / 2 ^ 14) % 2`. -/
def read_member_header (view : Bytes) (offset0 : Nat) (e : Endian) :
    Option (Option Nat × Nat × Bool × Nat) :=
  let offset := offset0 + cdrPadding offset0 4
  match unpackNat e view offset 2 with
  | none => none
  | some idHeader =>
    let pid := idHeader % 2 ^ 14
    if pid = SENTINEL_PID then
      some (none, 0, true, offset + 4)
    else
      let mustUnderstand := (idHeader / 2 ^ 14) % 2 = 1
      if pid = EXTENDED_PID then
        match unpackNat e view (offset + 4) 4, unpackNat e view (offset + 8) 4 with
        | some memberId, some objSize =>
            some (some memberId, objSize, mustUnderstand, offset + 12)
        | _, _ => none
      else
        match unpackNat e view (offset + 2) 2 with
        | some objSize => some (some pid, objSize, mustUnderstand, offset + 4)
        | none => none

/-- Embedding of `write_member_header` from `headers.py`: always the short
form — a 16-bit `flags | (member_id & 0x3FFF)` word followed by a 16-bit
`object_size & 0xFFFF`. -/
def write_member_header (buffer : Bytes) (offset0 : Nat) (e : Endian)
    (memberId objectSize : Nat) (mustUnderstand : Bool) :
    Option (Bytes × Nat) :=
  let offset := offset0 + cdrPadding offset0 4
  let header := (if mustUnderstand then 2 ^ 14 else 0) + memberId % 2 ^ 14
  match packNatInto e buffer offset 2 header with
  | none => none
  | some b1 =>
    (packNatInto e b1 (offset + 2) 2 (objectSize % 2 ^ 16)).map
      (fun b2 => (b2, offset + 4))

/-- Embedding of `write_sentinel_header` from `headers.py`. -/
def write_sentinel_header (buffer : Bytes) (offset0 : Nat) (e : Endian) :
    Option (Bytes × Nat) :=
  let offset := offset0 + cdrPadding offset0 4
  match packNatInto e buffer offset 2 SENTINEL_PID with
  | none => none
  | some b1 =>
    (packNatInto e b1 (offset + 2) 2 0).map (fun b2 => (b2, offset + 4))

/-- Embedding of `read_sentinel_header` from `headers.py`. -/
def read_sentinel_header (view : Bytes) (offset0 : Nat) (e : Endian) :
    Option Nat :=
  let offset := offset0 + cdrPadding offset0 4
  match unpackNat e view offset 2 with
  | none => none
  | some header =>
    if header % 2 ^ 14 = SENTINEL_PID then some (offset + 4) else none

theorem leValue_natToBytesLE (w v : Nat) (h : v < 256 ^ w) :
    leValue (natToBytesLE w v) = v := by
  induction w generalizing v with
  | zero =>
    simp [natToBytesLE, leValue]
    omega
  | succ n ih =>
    have hdiv : v / 256 < 256 ^ n := by
      rw [Nat.div_lt_iff_lt_mul (by norm_num)]
      calc v < 256 ^ (n + 1) := h
        _ = 256 ^ n * 256 := by ring
    simp only [natToBytesLE, leValue, List.foldr_cons]
    have := ih (v / 256) hdiv
    simp only [leValue] at this
    rw [this]
    omega

theorem ordBytes_ordBytes (e : Endian) (bs : Bytes) :
    ordBytes e (ordBytes e bs) = bs := by
  cases e <;> simp [ordBytes]

theorem length_natToBytesLE (w v : Nat) : (natToBytesLE w v).length = w := by
  induction w generalizing v with
  | zero => simp [natToBytesLE]
  | succ n ih => simp [natToBytesLE, ih]

theorem length_ordBytes (e : Endian) (bs : Bytes) :
    (ordBytes e bs).length = bs.length := by
  cases e <;> simp [ordBytes]

theorem length_packNat (e : Endian) (w v : Nat) :
    (packNat e w v).length = w := by
  simp [packNat, length_ordBytes, length_natToBytesLE]

theorem packInto_length (buffer : Bytes) (off : Nat) (data b : Bytes)
    (h : packInto buffer off data = some b) : b.length = buffer.length := by
  unfold packInto at h
  split at h
  · rename_i hle
    cases h
    simp [List.length_append, List.length_take, List.length_drop]
    omega
  · simp at h

theorem packInto_take (buffer : Bytes) (off : Nat) (data b : Bytes)
    (h : packInto buffer off data = some b) : b.take off = buffer.take off := by
  unfold packInto at h
  split at h
  · rename_i hle
    cases h
    have hoff : off ≤ buffer.length := by omega
    rw [List.append_assoc, List.take_append_of_le_length]
    · rw [List.take_take, Nat.min_self]
    · simp [List.length_take]; omega
  · simp at h

theorem packInto_read_self (buffer : Bytes) (off : Nat) (data b : Bytes)
    (h : packInto buffer off data = some b) :
    readBytesAt b off data.length = some data := by
  unfold packInto at h
  split at h
  · rename_i hle
    cases h
    have hoff : off ≤ buffer.length := by omega
    have hlen : (buffer.take off).length = off := by
      simp [List.length_take]; omega
    unfold readBytesAt
    split
    · rw [List.append_assoc, List.drop_left' hlen, List.take_left]
    · rename_i hc
      exact absurd (by
        simp only [List.length_append, List.length_take, List.length_drop]
        omega) hc
  · simp at h

theorem readBytesAt_of_take_eq (l m : Bytes) (k off n : Nat)
    (hlen : l.length = m.length)
    (h : l.take k = m.take k) (hn : off + n ≤ k) :
    readBytesAt l off n = readBytesAt m off n := by
  unfold readBytesAt
  rw [hlen]
  split
  · congr 1
    have h1 : (l.drop off).take n = ((l.take k).drop off).take n := by
      rw [List.drop_take]
      rw [List.take_take, Nat.min_eq_left (by omega)]
    have h2 : (m.drop off).take n = ((m.take k).drop off).take n := by
      rw [List.drop_take]
      rw [List.take_take, Nat.min_eq_left (by omega)]
    rw [h1, h2, h]
  · rfl

theorem unpackNat_packNatInto_self (e : Endian) (buffer b : Bytes)
    (off w v : Nat) (h : packNatInto e buffer off w v = some b) :
    unpackNat e b off w = some v := by
  unfold packNatInto at h
  split at h
  · rename_i hv
    have hr := packInto_read_self buffer off (packNat e w v) b h
    rw [length_packNat] at hr
    unfold unpackNat
    rw [hr]
    simp only [Option.map_some']
    congr 1
    rw [packNat, ordBytes_ordBytes, leValue_natToBytesLE w v hv]
  · simp at h

theorem unpackNat_packNatInto_before (e : Endian) (buffer b : Bytes)
    (off w v off2 w2 : Nat) (h : packNatInto e buffer off w v = some b)
    (hlt : off2 + w2 ≤ off) :
    unpackNat e b off2 w2 = unpackNat e buffer off2 w2 := by
  unfold packNatInto at h
  split at h
  · unfold unpackNat
    rw [readBytesAt_of_take_eq b buffer off off2 w2
      (packInto_length buffer off _ b h)
      (packInto_take buffer off _ b h) hlt]
  · simp at h

/-- C3 (amended): a member header holds a 14-bit member id, one
must-understand flag, and either a 16-bit inline size (short form) or a
32-bit id plus 32-bit size (extended form, PID `0x3F01`); PID `0x3F02` is
the sentinel.  `read_member_header` applied at the offset where
`write_member_header` wrote a member id and object size returns the same
member id, object size and must-understand flag, provided the member id is
a 14-bit value distinct from the reserved PIDs `0x3F01` and `0x3F02` and
the object size fits in 16 bits (the writer emits only the short form and
masks the size to 16 bits; ids are masked to 14 bits, and an id equal to a
reserved PID is read back as sentinel / extended form instead). -/
theorem read_write_member_header_roundtrip
    (buffer b : Bytes) (off noff : Nat) (e : Endian)
    (memberId objectSize : Nat) (mu : Bool)
    (hid : memberId < 2 ^ 14) (hext : memberId ≠ EXTENDED_PID)
    (hsent : memberId ≠ SENTINEL_PID) (hsize : objectSize < 2 ^ 16)
    (h : write_member_header buffer off e memberId objectSize mu
          = some (b, noff)) :
    read_member_header b off e = some (some memberId, objectSize, mu, noff) := by
  have h14 : memberId % 2 ^ 14 = memberId := Nat.mod_eq_of_lt hid
  simp only [write_member_header] at h
  cases hp : packNatInto e buffer (off + cdrPadding off 4) 2
      ((if mu then 2 ^ 14 else 0) + memberId % 2 ^ 14) with
  | none => rw [hp] at h; simp at h
  | some b1 =>
    rw [hp] at h
    dsimp only at h
    cases hq : packNatInto e b1 (off + cdrPadding off 4 + 2) 2
        (objectSize % 2 ^ 16) with
    | none => rw [hq] at h; simp at h
    | some b2 =>
      rw [hq] at h
      simp only [Option.map_some', Option.some.injEq, Prod.mk.injEq] at h
      obtain ⟨hb, hnoff⟩ := h
      subst hb
      have hu1 : unpackNat e b2 (off + cdrPadding off 4) 2
          = some ((if mu then 2 ^ 14 else 0) + memberId % 2 ^ 14) := by
        rw [unpackNat_packNatInto_before e b1 b2 (off + cdrPadding off 4 + 2) 2
          (objectSize % 2 ^ 16) (off + cdrPadding off 4) 2 hq (by omega)]
        exact unpackNat_packNatInto_self e buffer b1 (off + cdrPadding off 4) 2 _ hp
      have hu2 : unpackNat e b2 (off + cdrPadding off 4 + 2) 2
          = some (objectSize % 2 ^ 16) :=
        unpackNat_packNatInto_self e b1 b2 (off + cdrPadding off 4 + 2) 2 _ hq
      have hpid : ((if mu then 2 ^ 14 else 0) + memberId % 2 ^ 14) % 2 ^ 14
          = memberId := by
        cases mu <;> simp [h14] <;> omega
      have hsz : objectSize % 2 ^ 16 = objectSize := Nat.mod_eq_of_lt hsize
      simp only [read_member_header, hu1, hpid]
      rw [if_neg hsent, if_neg hext, hu2]
      have hmu : (((if mu then 2 ^ 14 else 0) + memberId % 2 ^ 14) / 2 ^ 14) % 2
          = if mu then 1 else 0 := by
        cases mu with
        | false => simp [h14]
        | true => simp [h14]
      have hsize65 : objectSize < 65536 := by omega
      cases mu <;> simp [hmu, hsz, hsize65, ← hnoff]

/-- C3 counterexample: for member id `0x3F02` (and, e.g., buffer of 12 zero
bytes, offset 4, size 0), `read_member_header` applied where
`write_member_header` wrote that id does not return the member id — it
reads the word back as the sentinel (member id `none`), so the claimed
roundtrip fails for this member id. -/
theorem write_member_header_sentinel_id_counterexample :
    ((write_member_header (List.replicate 12 0) 4 .le SENTINEL_PID 0 false).bind
        (fun p => read_member_header p.1 4 .le)).map (fun r => r.1)
      = some none ∧ (none : Option Nat) ≠ some SENTINEL_PID := by
  constructor
  · rfl
  · simp

/-- Witness for `read_write_member_header_roundtrip` at buffer
`replicate 12 0`, offset 4, member id 5, size 7, must-understand set. -/
theorem read_write_member_header_roundtrip_witness :
    read_member_header [0, 0, 0, 0, 5, 64, 7, 0, 0, 0, 0, 0] 4 .le
      = some (some 5, 7, true, 8) :=
  read_write_member_header_roundtrip (List.replicate 12 0)
    [0, 0, 0, 0, 5, 64, 7, 0, 0, 0, 0, 0] 4 8 .le 5 7 true
    (by decide) (by decide) (by decide) (by decide) (by decide)

/-- Embedding of the `_NORMALIZATION` dictionary lookup
`self._NORMALIZATION.get(t, t)` from `parse.py` — exactly the table in the
source (nine multi-word and numeric spellings; nothing else). -/
def normalizationGet (t : String) : String :=
  if t = "long double" then "float64"
  else if t = "double" then "float64"
  else if t = "float" then "float32"
  else if t = "short" then "int16"
  else if t = "unsigned short" then "uint16"
  else if t = "unsigned long long" then "uint64"
  else if t = "unsigned long" then "uint32"
  else if t = "long long" then "int64"
  else if t = "long" then "int32"
  else t

/-- Embedding of the `_BUILTIN_TYPES` set from `parse.py`. -/
def BUILTIN_TYPES : List String :=
  ["float64", "float32", "int16", "uint16", "uint64", "uint32", "int64",
   "int32", "int8", "uint8", "byte", "octet", "wchar", "char", "string",
   "wstring", "boolean"]

/-- Python `"::".flatten(parts)`. -/
def joinScoped (parts : List String) : String :=
  String.intercalate "::" parts

/-- Helper for `containsScopeSep`: substring search for `"::"` over a
character list. -/
def hasScopeSepChars : List Char → Bool
  | [] => false
  | [_] => false
  | a :: b :: rest => (a = ':' && b = ':') || hasScopeSepChars (b :: rest)

/-- Python `"::" in s`. -/
def containsScopeSep (s : String) : Bool :=
  hasScopeSepChars s.data

/-- Embedding of the loop `for i in range(len(scope), -1, -1)` in
`resolve_types` (shared by `resolve_field`, the union switch type and
typedefs): try `scope[:i] + [t]` for `i` from the argument down to `0`,
returning the first candidate found in `named_types`. -/
def scanScope (namedTypes : List String) (scope : List String) (t : String) :
    Nat → Option String
  | 0 =>
    if namedTypes.contains (joinScoped [t]) then some (joinScoped [t]) else none
  | i + 1 =>
    let candidate := joinScoped (scope.take (i + 1) ++ [t])
    if namedTypes.contains candidate then some candidate
    else scanScope namedTypes scope t i

/-- Embedding of `resolve_field` from `resolve_types` in `parse.py`: the
rewrite applied to a field's type string given the collected name index
and the current scope stack. -/
def resolveFieldType (namedTypes : List String) (scope : List String)
    (t : String) : String :=
  if BUILTIN_TYPES.contains t then t
  else if t.startsWith "::" then t.drop 2
  else if containsScopeSep t then t
  else
    match scanScope namedTypes scope t scope.length with
    | some r => r
    | none => t

/-- Embedding of the `Union` branch of `resolve_types.resolve` in
`parse.py`: the switch type is first normalized, then resolved by the same
scope walk (without the absolute-prefix stripping of `resolve_field`). -/
def resolveSwitchType (namedTypes : List String) (scope : List String)
    (st : String) : String :=
  let st1 := normalizationGet st
  if BUILTIN_TYPES.contains st1 || st1.startsWith "::" || containsScopeSep st1 then
    st1
  else
    match scanScope namedTypes scope st1 scope.length with
    | some r => r
    | none => st1

/-- Specification-side description of the scope walk of C5: the candidate
list `s1::...::sn::X`, `s1::...::s(n-1)::X`, ..., `X` in that order, and
the result is the first candidate present in the name index, or `X`
itself when none is. -/
def specScopeResolution (namedTypes : List String) (scope : List String)
    (x : String) : String :=
  ((((List.range (scope.length + 1)).reverse).map
      (fun i => joinScoped (scope.take i ++ [x]))).find?
    (fun c => namedTypes.contains c)).getD x

theorem scanScope_eq_find (namedTypes scope : List String) (t : String) :
    ∀ n, scanScope namedTypes scope t n
      = (((List.range (n + 1)).reverse).map
          (fun i => joinScoped (scope.take i ++ [t]))).find?
        (fun c => namedTypes.contains c) := by
  intro n
  induction n with
  | zero =>
    simp only [scanScope, List.range_succ, List.range_zero]
    simp only [List.nil_append, List.reverse_cons, List.reverse_nil,
      List.nil_append, List.map_cons, List.map_nil]
    simp only [List.take_zero, List.nil_append]
    by_cases hc : namedTypes.contains (joinScoped [t]) = true
    · rw [if_pos hc, List.find?_cons_of_pos _ hc]
    · rw [if_neg hc, List.find?_cons_of_neg _ hc]
      rfl
  | succ i ih =>
    have hrev : (List.range (i + 1 + 1)).reverse
        = (i + 1) :: (List.range (i + 1)).reverse := by
      rw [List.range_succ]
      simp
    simp only [scanScope, ih, hrev, List.map_cons]
    by_cases hc :
        namedTypes.contains (joinScoped (scope.take (i + 1) ++ [t])) = true
    · rw [if_pos hc, List.find?_cons_of_pos _ hc]
    · rw [if_neg hc, List.find?_cons_of_neg _ hc]

theorem match_getD (o : Option String) (t : String) :
    (match o with | some r => r | none => t) = o.getD t := by
  cases o <;> rfl

/-- C5: for every field whose type is an unqualified non-primitive name
`t` appearing in scope `scope`, the resolver tries the candidates
`s1::...::sn::t`, then `s1::...::s(n-1)::t`, and so on down to `t`, and
rewrites the type to the first candidate present in the name index; when
no candidate is present the type is left unchanged (the `getD t` fallback
of `specScopeResolution`).  The same holds for the union switch type after
its spelling normalization. -/
theorem resolve_types_scope_walk (namedTypes scope : List String)
    (t st : String)
    (hb : BUILTIN_TYPES.contains t = false)
    (habs : t.startsWith "::" = false)
    (hsep : containsScopeSep t = false)
    (hb2 : BUILTIN_TYPES.contains (normalizationGet st) = false)
    (habs2 : (normalizationGet st).startsWith "::" = false)
    (hsep2 : containsScopeSep (normalizationGet st) = false) :
    resolveFieldType namedTypes scope t = specScopeResolution namedTypes scope t
    ∧ resolveSwitchType namedTypes scope st
        = specScopeResolution namedTypes scope (normalizationGet st) := by
  constructor
  · unfold resolveFieldType
    rw [hb, habs, hsep]
    simp only [Bool.false_eq_true, if_false]
    rw [scanScope_eq_find, match_getD]
    rfl
  · simp only [resolveSwitchType]
    rw [hb2, habs2, hsep2]
    simp only [Bool.or_self, Bool.false_eq_true, if_false]
    rw [scanScope_eq_find, match_getD]
    rfl

/-- Witness for `resolve_types_scope_walk`: scope `["a", "b"]`, name index
`["a::X", "X"]`; the innermost candidate `a::b::X` is absent, the next
candidate `a::X` is present and wins over the top-level `X`. -/
theorem resolve_types_scope_walk_witness :
    resolveFieldType ["a::X", "X"] ["a", "b"] "X"
        = specScopeResolution ["a::X", "X"] ["a", "b"] "X"
    ∧ resolveSwitchType ["a::X", "X"] ["a", "b"] "X"
        = specScopeResolution ["a::X", "X"] ["a", "b"]
            (normalizationGet "X") :=
  resolve_types_scope_walk ["a::X", "X"] ["a", "b"] "X" "X"
    (by decide) (by decide) (by decide) (by decide) (by decide) (by decide)

/-- C4: evidence that the claimed normalization table diverges from the
code.  `_NORMALIZATION` maps the nine numeric spellings exactly as the
claim's table says, but it has no entries for `octet`, `byte`, `char`,
`wchar` or `boolean`: those spellings pass through `_Transformer.type`
unchanged, so the resulting AST contains `"octet"`, `"byte"`, `"char"`,
`"wchar"`, `"boolean"` rather than the claimed canonical tags `uint8`,
`uint8`, `uint8`, `uint16`, `bool` (the repository's own
`test_constant_types_and_references` expects type `bool` for a `boolean`
constant). -/
theorem normalization_table_divergence :
    (normalizationGet "short" = "int16"
      ∧ normalizationGet "unsigned short" = "uint16"
      ∧ normalizationGet "long" = "int32"
      ∧ normalizationGet "unsigned long" = "uint32"
      ∧ normalizationGet "long long" = "int64"
      ∧ normalizationGet "unsigned long long" = "uint64"
      ∧ normalizationGet "float" = "float32"
      ∧ normalizationGet "double" = "float64"
      ∧ normalizationGet "long double" = "float64")
    ∧ (normalizationGet "octet" = "octet"
      ∧ normalizationGet "byte" = "byte"
      ∧ normalizationGet "char" = "char"
      ∧ normalizationGet "wchar" = "wchar"
      ∧ normalizationGet "boolean" = "boolean")
    ∧ (normalizationGet "octet" ≠ "uint8"
      ∧ normalizationGet "byte" ≠ "uint8"
      ∧ normalizationGet "char" ≠ "uint8"
      ∧ normalizationGet "wchar" ≠ "uint16"
      ∧ normalizationGet "boolean" ≠ "bool") := by
  decide

/-- Characters that can begin a terminal of `IDL_GRAMMAR` in `parse.py`:
keyword, `NAME` and `BUILTIN_TYPE` terminals start with a letter or
underscore; `INT` and `SIGNED_NUMBER` with a digit, a sign or a dot;
`STRING` with a double quote; the anonymous punctuation terminals with
one of the listed punctuation characters (including the two curly braces,
written by code point); and `%ignore WS` covers whitespace only.  The
grammar has no terminal, rule or ignore directive for `//` or block
comments, `#include` directives, or anything beginning with `/` or `#`. -/
def canStartIdlToken (c : Char) : Bool :=
  c.isAlpha || c = '_' || c.isDigit || c = '+' || c = '-' || c = '.' ||
  c = '"' || c = Char.ofNat 123 || c = Char.ofNat 125 || c = '(' ||
  c = ')' || c = ';' || c = ',' || c = ':' || c = '<' || c = '>' ||
  c = '=' || c = '@' || c = '[' || c = ']' || c.isWhitespace

/-- C6: the comment character `/` (code point 47) and the preprocessor
hash `#` (code point 35) cannot begin any token of `IDL_GRAMMAR`, so IDL
text containing `//` or block comments or `#include` directives is
rejected by the lexer rather than ignored (and `import` fails at the
parser, since no `definition` alternative starts with that keyword) —
contradicting the claim and the repository's own
`test_skip_import_and_include` / `test_ignore_comments` tests. -/
theorem idl_grammar_comment_chars_unlexable :
    canStartIdlToken (Char.ofNat 47) = false
    ∧ canStartIdlToken (Char.ofNat 35) = false := by
  decide

/-- Constant-expression atoms of the `const_value` production in
`parse.py`: a signed numeric literal or an identifier reference (a
`scoped_name` already joined with `::` into a single string).  Numeric
literals are modelled as integers; float literals take the identical
resolution path. -/
inductive ConstAtom where
  | num (n : Int)
  | ref (name : String)
deriving DecidableEq

/-- A `const_value`: a string literal or a sum of atoms. -/
inductive ConstExpr where
  | strLit (s : String)
  | atoms (xs : List ConstAtom)
deriving DecidableEq

/-- Values held in the transformer's `_constants` dictionary. -/
inductive CVal where
  | num (n : Int)
  | str (s : String)
deriving DecidableEq

/-- The `_constants` table of `_Transformer.__init__`: newest binding
first, so `List.lookup` finds the most recently registered binding —
matching lookups in a Python dict whose entries are overwritten in
place. -/
abbrev CTable := List (String × CVal)

/-- Embedding of the identifier branch of `_Transformer.const_value`: a
reference resolves through the single `_constants` table and raises on
unknown identifiers. -/
def evalAtom (tbl : CTable) : ConstAtom → Except String CVal
  | .num n => .ok (.num n)
  | .ref s =>
    match tbl.lookup s with
    | none => .error "Unknown identifier"
    | some v => .ok v

/-- Numeric value of an atom on the sum path of `const_value`; a
string-valued identifier raises, as in the source. -/
def atomNum (tbl : CTable) : ConstAtom → Except String Int
  | .num n => .ok n
  | .ref s =>
    match tbl.lookup s with
    | none => .error "Unknown identifier"
    | some (.num n) => .ok n
    | some (.str _) => .error "Identifier does not evaluate to a number"

/-- Sum loop of `const_value` (left-to-right, first failure raises). -/
def sumAtoms (tbl : CTable) : List ConstAtom → Except String Int
  | [] => .ok 0
  | x :: xs => do
    let n ← atomNum tbl x
    let rest ← sumAtoms tbl xs
    .ok (n + rest)

/-- Embedding of `_Transformer.const_value` / `const_string`. -/
def const_value (tbl : CTable) : ConstExpr → Except String CVal
  | .strLit s => .ok (.str s)
  | .atoms [x] => evalAtom tbl x
  | .atoms xs => (sumAtoms tbl xs).map .num

/-- Embedding of the `Field` dataclass of `parse.py` (annotations are not
needed by any claim and are omitted). -/
structure PField where
  name : String
  type : String
  array_length : Option Nat := none
  is_sequence : Bool := false
  sequence_bound : Option Nat := none
deriving DecidableEq

/-- Embedding of the `UnionCase` dataclass (its `value` is the already
evaluated `const_value`). -/
structure PUnionCase where
  value : CVal
  field : PField
deriving DecidableEq

/-- Definitions produced by `parse_idl`, mirroring the dataclasses of
`parse.py` (the `default` member of `Union` is called `udefault` here). -/
inductive IDLDef where
  | struct (name : String) (fields : List PField)
  | enum (name : String) (enumerators : List (String × Option Int))
  | constant (name : String) (type : String) (value : ConstExpr)
  | typedef (name : String) (type : String) (arrayLength : Option Nat)
  | union (name : String) (switchType : String) (cases : List PUnionCase)
      (udefault : Option PField)
  | module (name : String) (defs : List IDLDef)

/-- Embedding of the registration loop of `_Transformer.enum`: walks the
enumerators updating `current` (starting from `-1`), and registers each
value under both the bare enumerator name and `EnumName::Enumerator`. -/
def enumFold (ename : String) :
    List (String × Option Int) → Int → CTable → CTable
  | [], _, tbl => tbl
  | (n, v) :: rest, current, tbl =>
    let cur := match v with
      | some x => x
      | none => current + 1
    enumFold ename rest cur
      ((ename ++ "::" ++ n, CVal.num cur) :: (n, CVal.num cur) :: tbl)

mutual
/-- Registration effect on `_constants` of transforming one definition:
`constant` evaluates its expression against the current table and
registers its bare name (module scope is not part of the key); `enum`
registers its enumerators; `module` recurses into its children; all other
definitions leave the table unchanged.  Definitions are processed in
source order, which is the order Lark's bottom-up transformer evaluates
the `constant`, `enum` and `const_value` nodes. -/
def processDef (tbl : CTable) : IDLDef → Except String CTable
  | .constant n _ e => (const_value tbl e).map (fun v => (n, v) :: tbl)
  | .enum n es => .ok (enumFold n es (-1) tbl)
  | .module _ sub => processDefs tbl sub
  | _ => .ok tbl

/-- Fold of `processDef` over a definition list, in source order. -/
def processDefs (tbl : CTable) : List IDLDef → Except String CTable
  | [] => .ok tbl
  | d :: ds => do
    let t1 ← processDef tbl d
    processDefs t1 ds
end

/-- Specification-side module erasure for C10: the same definitions in
source order with all module structure removed. -/
def flattenModules : List IDLDef → List IDLDef
  | [] => []
  | .module _ sub :: ds => flattenModules sub ++ flattenModules ds
  | d :: ds => d :: flattenModules ds

theorem processDefs_append (tbl : CTable) (xs ys : List IDLDef) :
    processDefs tbl (xs ++ ys)
      = (processDefs tbl xs).bind (fun t => processDefs t ys) := by
  induction xs generalizing tbl with
  | nil => rfl
  | cons d ds ih =>
    show processDefs tbl (d :: (ds ++ ys)) = _
    simp only [processDefs]
    cases processDef tbl d with
    | error e => rfl
    | ok t1 =>
      simp only [Except.bind]
      exact ih t1

theorem flattenModules_cons_nonmodule (d : IDLDef) (ds : List IDLDef)
    (h : ∀ (name : String) (sub : List IDLDef), d ≠ IDLDef.module name sub) :
    flattenModules (d :: ds) = d :: flattenModules ds := by
  cases d with
  | module name sub => exact absurd rfl (h name sub)
  | struct n fs => rw [flattenModules]; intro a b hh; exact IDLDef.noConfusion hh
  | enum n es => rw [flattenModules]; intro a b hh; exact IDLDef.noConfusion hh
  | constant n ty e =>
    rw [flattenModules]; intro a b hh; exact IDLDef.noConfusion hh
  | typedef n ty a =>
    rw [flattenModules]; intro a b hh; exact IDLDef.noConfusion hh
  | union n st cs df =>
    rw [flattenModules]; intro a b hh; exact IDLDef.noConfusion hh

theorem processDefs_flatten :
    ∀ (defs : List IDLDef) (tbl : CTable),
      processDefs tbl defs = processDefs tbl (flattenModules defs)
  | [], _ => by rw [flattenModules]
  | .module n sub :: ds, tbl => by
    rw [flattenModules, processDefs_append]
    simp only [processDefs, processDef]
    rw [processDefs_flatten sub tbl]
    cases processDefs tbl (flattenModules sub) with
    | error e => rfl
    | ok t1 =>
      simp only [Except.bind]
      exact processDefs_flatten ds t1
  | .struct n fs :: ds, tbl => by
    rw [flattenModules_cons_nonmodule _ _ (fun a b => by intro hh; exact IDLDef.noConfusion hh)]
    simp only [processDefs, processDef, Except.bind]
    exact processDefs_flatten ds tbl
  | .enum n es :: ds, tbl => by
    rw [flattenModules_cons_nonmodule _ _ (fun a b => by intro hh; exact IDLDef.noConfusion hh)]
    simp only [processDefs, processDef, Except.bind]
    exact processDefs_flatten ds (enumFold n es (-1) tbl)
  | .constant n ty e :: ds, tbl => by
    rw [flattenModules_cons_nonmodule _ _ (fun a b => by intro hh; exact IDLDef.noConfusion hh)]
    simp only [processDefs, processDef]
    cases const_value tbl e with
    | error err => rfl
    | ok v =>
      simp only [Except.map, Except.bind]
      exact processDefs_flatten ds ((n, v) :: tbl)
  | .typedef n ty a :: ds, tbl => by
    rw [flattenModules_cons_nonmodule _ _ (fun a b => by intro hh; exact IDLDef.noConfusion hh)]
    simp only [processDefs, processDef, Except.bind]
    exact processDefs_flatten ds tbl
  | .union n st cs df :: ds, tbl => by
    rw [flattenModules_cons_nonmodule _ _ (fun a b => by intro hh; exact IDLDef.noConfusion hh)]
    simp only [processDefs, processDef, Except.bind]
    exact processDefs_flatten ds tbl

/-- C10: `parse_idl` evaluates constant expressions through one global
table populated in declaration order and keyed by bare names (plus
`EnumName::Enumerator` for enumerators), ignoring module scope:
(1) erasing all module structure does not change constant evaluation;
(2) a reference resolves to the most recently registered binding of that
name; (3) a registration for a different name does not affect it;
(4) with no earlier declaration the reference raises; (5) an enumerator
is registered under its bare name and its `EnumName::Enumerator` name. -/
theorem const_eval_global_table :
    (∀ (tbl : CTable) (defs : List IDLDef),
        processDefs tbl defs = processDefs tbl (flattenModules defs))
    ∧ (∀ (tbl : CTable) (x : String) (v : CVal),
        evalAtom ((x, v) :: tbl) (.ref x) = .ok v)
    ∧ (∀ (tbl : CTable) (x y : String) (v : CVal), x ≠ y →
        evalAtom ((y, v) :: tbl) (.ref x) = evalAtom tbl (.ref x))
    ∧ (∀ x : String, evalAtom [] (.ref x) = .error "Unknown identifier")
    ∧ (∀ (tbl : CTable) (en c : String),
        processDef tbl (.enum en [(c, none)])
          = .ok ((en ++ "::" ++ c, CVal.num 0) :: (c, CVal.num 0) :: tbl)) := by
  refine ⟨fun tbl defs => processDefs_flatten defs tbl, ?_, ?_, ?_, ?_⟩
  · intro tbl x v
    simp [evalAtom, List.lookup]
  · intro tbl x y v hxy
    have hbeq : (x == y) = false := by
      simp [hxy]
    simp [evalAtom, List.lookup, hbeq]
  · intro x
    rfl
  · intro tbl en c
    rfl

/-- Witness for `const_eval_global_table` at concrete tables, names and
definition lists. -/
theorem const_eval_global_table_witness :
    processDefs []
        [IDLDef.module "m" [IDLDef.constant "A" "int32" (.atoms [.num 1])]]
      = processDefs []
          (flattenModules
            [IDLDef.module "m" [IDLDef.constant "A" "int32" (.atoms [.num 1])]])
    ∧ evalAtom [("B", CVal.num 2)] (.ref "B") = .ok (CVal.num 2)
    ∧ evalAtom [("C", CVal.num 3)] (.ref "A") = evalAtom [] (.ref "A")
    ∧ evalAtom [] (.ref "A") = .error "Unknown identifier"
    ∧ processDef [] (.enum "Color" [("RED", none)])
      = .ok [("Color::RED", CVal.num 0), ("RED", CVal.num 0)] :=
  ⟨const_eval_global_table.1 []
      [IDLDef.module "m" [IDLDef.constant "A" "int32" (.atoms [.num 1])]],
   const_eval_global_table.2.1 [] "B" (CVal.num 2),
   const_eval_global_table.2.2.1 [] "A" "C" (CVal.num 3) (by decide),
   const_eval_global_table.2.2.2.1 "A",
   const_eval_global_table.2.2.2.2 [] "Color" "RED"⟩

/-- Runtime values produced by the reader: Python ints, bools, floats
(kept as their IEEE bit patterns — the codec moves the raw bits and the
claims under study do not depend on float arithmetic), strings (as lists
of Unicode code points, like Python `str`), lists (covering Python lists
and `array.array`s), and dicts (association lists in insertion order;
Python dict equality ignores order, so conforming values are normalized
to schema declaration order). -/
inductive Value where
  | vint (i : Int)
  | vbool (b : Bool)
  | vfloat (bits : Nat)
  | vstr (cps : List Nat)
  | vlist (xs : List Value)
  | vdict (entries : List (String × Value))

/-- Modelled from the spec: `PRIMITIVE_SIZES` of the missing
`message_writer.py` (the primitive-encoding table of spec section 4.6). -/
def PRIMITIVE_SIZES : List (String × Nat) :=
  [("bool", 1), ("int8", 1), ("uint8", 1), ("int16", 2), ("uint16", 2),
   ("int32", 4), ("uint32", 4), ("int64", 8), ("uint64", 8),
   ("float32", 4), ("float64", 8)]

/-- Python `t in PRIMITIVE_SIZES`. -/
def isPrimitive (t : String) : Bool :=
  (PRIMITIVE_SIZES.lookup t).isSome

/-- Modelled from the spec: `_primitive_size` of the missing
`message_writer.py`. -/
def primSize (t : String) : Nat :=
  (PRIMITIVE_SIZES.lookup t).getD 0

def isSignedInt (t : String) : Bool :=
  t = "int8" || t = "int16" || t = "int32" || t = "int64"

def isFloat (t : String) : Bool :=
  t = "float32" || t = "float64"

/-- Two's-complement interpretation of a `bits`-wide raw value. -/
def toSigned (bits raw : Nat) : Int :=
  if raw < 2 ^ (bits - 1) then (raw : Int) else (raw : Int) - 2 ^ bits

/-- Value decoded by `struct.unpack_from` for primitive type `t` from the
raw unsigned integer `raw` (the reader converts `bool` with `bool(val)`;
the `?` format treats any nonzero byte as true). -/
def decodePrim (t : String) (raw : Nat) : Value :=
  if t = "bool" then .vbool (raw ≠ 0)
  else if isSignedInt t then .vint (toSigned (8 * primSize t) raw)
  else if isFloat t then .vfloat raw
  else .vint (Int.ofNat raw)

/-- Python `bytes.decode("utf-8")` with strict error handling: rejects
continuation-lead bytes, overlong encodings, surrogates and values above
`0x10FFFF`; returns the decoded code points. -/
def utf8Decode : List Nat → Option (List Nat)
  | [] => some []
  | b :: rest =>
    if b < 0x80 then (utf8Decode rest).map (fun cs => b :: cs)
    else if b < 0xC2 then none
    else if b < 0xE0 then
      match rest with
      | c1 :: rest2 =>
        if 0x80 ≤ c1 ∧ c1 < 0xC0 then
          (utf8Decode rest2).map (fun cs => ((b - 0xC0) * 64 + (c1 - 0x80)) :: cs)
        else none
      | _ => none
    else if b < 0xF0 then
      match rest with
      | c1 :: c2 :: rest2 =>
        if (0x80 ≤ c1 ∧ c1 < 0xC0) ∧ (0x80 ≤ c2 ∧ c2 < 0xC0)
            ∧ (b = 0xE0 → 0xA0 ≤ c1) ∧ (b = 0xED → c1 < 0xA0) then
          (utf8Decode rest2).map (fun cs =>
            ((b - 0xE0) * 4096 + (c1 - 0x80) * 64 + (c2 - 0x80)) :: cs)
        else none
      | _ => none
    else if b < 0xF5 then
      match rest with
      | c1 :: c2 :: c3 :: rest2 =>
        if (0x80 ≤ c1 ∧ c1 < 0xC0) ∧ (0x80 ≤ c2 ∧ c2 < 0xC0)
            ∧ (0x80 ≤ c3 ∧ c3 < 0xC0)
            ∧ (b = 0xF0 → 0x90 ≤ c1) ∧ (b = 0xF4 → c1 < 0x90) then
          (utf8Decode rest2).map (fun cs =>
            ((b - 0xF0) * 262144 + (c1 - 0x80) * 4096
              + (c2 - 0x80) * 64 + (c3 - 0x80)) :: cs)
        else none
      | _ => none
    else none

/-- Python `bytes.decode("utf-16-le")` with strict error handling:
combines surrogate pairs, rejects lone surrogates and odd byte counts. -/
def utf16leDecode : List Nat → Option (List Nat)
  | [] => some []
  | [_] => none
  | b0 :: b1 :: rest =>
    let cu := b0 + 256 * b1
    if cu < 0xD800 ∨ 0xE000 ≤ cu then (utf16leDecode rest).map (fun cs => cu :: cs)
    else if cu < 0xDC00 then
      match rest with
      | c0 :: c1 :: rest2 =>
        let cu2 := c0 + 256 * c1
        if 0xDC00 ≤ cu2 ∧ cu2 < 0xE000 then
          (utf16leDecode rest2).map (fun cs =>
            (0x10000 + (cu - 0xD800) * 1024 + (cu2 - 0xDC00)) :: cs)
        else none
      | _ => none
    else none

/-- Modelled from the spec: `UNION_DISCRIMINATOR_PROPERTY_KEY` of the
missing `constants.py` (spec section 4.7: `$discriminator`). -/
def UNION_DISCRIMINATOR_PROPERTY_KEY : String := "$discriminator"

/-- Modelled from the spec: `FieldDeserializationInfo` of the missing
`deserialization_info_cache.py` (spec section 4.5: canonical type,
dimensions, sequence flag and bound, string bound, default value, member
id).  Complex types are resolved by name through the plan environment. -/
structure FieldInfo where
  name : String
  type : String
  id : Nat
  is_array : Bool
  array_lengths : Option (List Nat)
  is_sequence : Bool
  sequence_bound : Option Nat
  string_upper_bound : Option Nat
  default_value : Option Value

/-- Modelled from the spec: `StructDeserializationInfo` of the missing
`deserialization_info_cache.py` (ordered field plans plus the framing
flags `uses_delimiter_header` / `uses_member_header`). -/
structure StructInfo where
  name : String
  uses_delimiter_header : Bool
  uses_member_header : Bool
  fields : List FieldInfo

/-- The parts of the `parse.py` `Union` dataclass the reader uses:
switch type, cases and default field (named `udefault` here). -/
structure UnionDefInfo where
  switch_type : String
  cases : List PUnionCase
  udefault : Option PField

/-- Modelled from the spec: `UnionDeserializationInfo` of the missing
`deserialization_info_cache.py`. -/
structure UnionInfo where
  uses_delimiter_header : Bool
  uses_member_header : Bool
  definition : UnionDefInfo

/-- A struct or union plan, as stored in the cache. -/
inductive ComplexInfo where
  | structInfo (s : StructInfo)
  | unionInfo (u : UnionInfo)

/-- Modelled from the spec: the deserialization-info cache as an arena
keyed by type name (spec section 9 recommends exactly this arena shape;
it also permits the cyclic schemas of spec section 4.5). -/
abbrev DeserEnv := List (String × ComplexInfo)

def lookupEnv (env : DeserEnv) (t : String) : Option ComplexInfo :=
  env.lookup t

/-- Modelled from the spec: `DeserializationInfoCache.build_field_info`
of the missing `deserialization_info_cache.py` — builds a field plan from
a `parse.py` `Field` (which carries a single optional `array_length`, no
string bound and no default). -/
def build_field_info (f : PField) (fid : Nat) : FieldInfo :=
  { name := f.name
    type := f.type
    id := fid
    is_array := f.array_length.isSome
    array_lengths := f.array_length.map (fun n => [n])
    is_sequence := f.is_sequence
    sequence_bound := f.sequence_bound
    string_upper_bound := none
    default_value := none }

/-- Python `==` between an evaluated case predicate and a decoded
discriminator (Python compares bools and ints numerically). -/
def cvalMatches : CVal → Value → Bool
  | .num n, .vint m => n = m
  | .num n, .vbool b => n = (if b then 1 else 0)
  | .str s, .vstr cps => s.data.map Char.toNat = cps
  | _, _ => false

/-- Modelled from the spec: `_union_case_field` of the missing
`message_writer.py` (spec section 4.6: the matching case field, else the
default when no case matches). -/
def union_case_field (u : UnionDefInfo) (disc : Value) : Option PField :=
  match u.cases.find? (fun c => cvalMatches c.value disc) with
  | some c => some c.field
  | none => u.udefault

/-- Python dict assignment `msg[k] = v`: replaces in place, appends new
keys at the end. -/
def dictSet : List (String × Value) → String → Value → List (String × Value)
  | [], k, v => [(k, v)]
  | (k0, v0) :: rest, k, v =>
    if k0 = k then (k, v) :: rest else (k0, v0) :: dictSet rest k v

/-- Modelled from the spec: per-field default of
`DeserializationInfoCache.get_complex_default` (spec section 4.5: the
`@default(...)` value when present, otherwise 0 / false / empty string for
primitives, empty for arrays and sequences, and the nested default for
structs). -/
def fieldDefault (env : DeserEnv) : Nat → FieldInfo → Value
  | 0, _ => .vint 0
  | fuel + 1, f =>
    match f.default_value with
    | some v => v
    | none =>
      if f.is_array || f.is_sequence then .vlist []
      else if f.type = "bool" then .vbool false
      else if f.type = "string" || f.type = "wstring" then .vstr []
      else if isFloat f.type then .vfloat 0
      else if isPrimitive f.type then .vint 0
      else
        match lookupEnv env f.type with
        | some (.structInfo s) =>
          .vdict (s.fields.map (fun g => (g.name, fieldDefault env fuel g)))
        | _ => .vdict []

/-- Modelled from the spec: `get_complex_default` for a struct plan
(entries in schema declaration order). -/
def structDefaultEntries (env : DeserEnv) (fuel : Nat) (info : StructInfo) :
    List (String × Value) :=
  info.fields.map (fun f => (f.name, fieldDefault env fuel f))

/-- A log of primitive reads `(offset, byte_width)` performed by the
reader, recorded at each `struct.unpack_from` call site (and per element
for bulk primitive-array reads). -/
abbrev Log := List (Nat × Nat)

/-- Embedding of the primitive branch of `_read_field`: pad to the
primitive size, unpack, convert. -/
def readPrimField (e : Endian) (t : String) (view : Bytes) (offset0 : Nat) :
    Except String (Value × Nat × Log) :=
  let size := primSize t
  let offset := offset0 + cdrPadding offset0 size
  match unpackNat e view offset size with
  | none => .error "unpack_from out of range"
  | some raw => .ok (decodePrim t raw, offset + size, [(offset, size)])

/-- The terminator width of the reader: `1 if t == "string" else 2`. -/
def strTerm (t : String) : Nat :=
  if t = "string" then 1 else 2

/-- The decode the reader applies: UTF-8 for `string`, UTF-16LE for
`wstring`. -/
def decodeStr (t : String) (data : Bytes) : Option (List Nat) :=
  if t = "string" then utf8Decode data else utf16leDecode data

/-- Embedding of the string/wstring decode shared by `_read_field` and
`_read_array`: pad to 4, read the 32-bit byte length (which includes the
terminator), slice off the terminator, decode, then enforce
`string_upper_bound` on the decoded character count. -/
def readOneString (e : Endian) (t : String) (sub : Option Nat)
    (view : Bytes) (offset0 : Nat) :
    Except String (List Nat × Nat × Log) :=
  let offset := offset0 + cdrPadding offset0 4
  match unpackNat e view offset 4 with
  | none => .error "unpack_from out of range"
  | some length =>
    let data := sliceBytes view (offset + 4) (length - strTerm t)
    match decodeStr t data with
    | none => .error "UnicodeDecodeError"
    | some s =>
      match sub with
      | some bound =>
        if bound < s.length then
          .error "string length exceeds bound"
        else .ok (s, offset + 4 + length, [(offset, 4)])
      | none => .ok (s, offset + 4 + length, [(offset, 4)])

/-- String-sequence / string-array element loop of the reader. -/
def readStringsLoop (e : Endian) (t : String) (sub : Option Nat) :
    Nat → Bytes → Nat → Except String (List (List Nat) × Nat × Log)
  | 0, _, offset => .ok ([], offset, [])
  | k + 1, view, offset =>
    match readOneString e t sub view offset with
    | .error m => .error m
    | .ok (s, off1, log1) =>
      match readStringsLoop e t sub k view off1 with
      | .error m => .error m
      | .ok (ss, off2, log2) => .ok (s :: ss, off2, log1 ++ log2)

/-- Elements of a bulk primitive block, `count` chunks of `size` bytes
decoded in wire order (the net effect of `array.frombytes` plus the
conditional `byteswap` in the reader). -/
def decodeChunks (e : Endian) (t : String) (size : Nat) :
    Nat → Bytes → List Value
  | 0, _ => []
  | k + 1, bs =>
    decodePrim t (leValue (ordBytes e (bs.take size)))
      :: decodeChunks e t size k (bs.drop size)

/-- Embedding of the primitive array/sequence bulk read: pad to the
element size, slice `size * count` bytes (Python slicing truncates
silently at the end of the buffer), require a whole number of elements
(`array.frombytes` raises otherwise), and advance the cursor by the full
requested byte length as the source does. -/
def readPrimBlock (e : Endian) (t : String) (count : Nat) (view : Bytes)
    (offset0 : Nat) : Except String (Value × Nat × Log) :=
  let size := primSize t
  let offset := offset0 + cdrPadding offset0 size
  let byteLength := size * count
  let data := sliceBytes view offset byteLength
  if data.length % size = 0 then
    let actual := data.length / size
    .ok (.vlist (decodeChunks e t size actual data), offset + byteLength,
      (List.range actual).map (fun k => (offset + k * size, size)))
  else .error "bytes length not a multiple of item size"

/-- Requests of the reader interpreter: one constructor per recursive
entry point of `MessageReader` (`_read_struct`, `_read_union`,
`_read_field`, `_read_array`, plus its three internal element loops). -/
inductive ReadReq where
  | rstruct (info : StructInfo)
  | runion (info : UnionInfo)
  | rfield (f : FieldInfo)
  | rarray (f : FieldInfo) (lengths : List Nat)
  | rfields (fds : List FieldInfo) (acc : List (String × Value))
  | rcomplexLoop (ci : ComplexInfo) (count : Nat)
  | rnested (f : FieldInfo) (lengths : List Nat) (count : Nat)

/-- Results of the reader interpreter. -/
inductive ReadRes where
  | one (v : Value)
  | many (vs : List Value)
  | entries (m : List (String × Value))

/-- Embedding of the recursive core of `MessageReader` as a single
fuel-indexed interpreter (fuel models Python's call stack; every branch
is a direct transcription of the corresponding source branch).  In
`.rstruct` and `.runion`, when the plan sets `uses_member_header`, the
source destructures the 4-tuple returned by `read_member_header` into
three names (`field_id, size, new_offset = read_member_header(...)`),
which raises `ValueError: too many values to unpack` on the first loop
iteration; that branch therefore fails unconditionally. -/
def readGo (env : DeserEnv) (e : Endian) :
    Nat → ReadReq → Bytes → Nat → Except String (ReadRes × Nat × Log)
  | 0, _, _, _ => .error "recursion limit"
  | fuel + 1, req, view, offset =>
    match req with
    | .rstruct info =>
      match (if info.uses_delimiter_header then
               let offA := offset + cdrPadding offset 4
               match read_delimiter_header view offA e with
               | none => none
               | some (length, offB) =>
                 some (some (offB + length), offB, ([(offA, 4)] : Log))
             else some (none, offset, ([] : Log))) with
      | none => .error "unpack_from out of range"
      | some (dEnd, off1, log1) =>
        if info.uses_member_header then
          .error "too many values to unpack"
        else
          let msg0 := structDefaultEntries env (fuel + 1) info
          match readGo env e fuel (.rfields info.fields msg0) view off1 with
          | .error m => .error m
          | .ok (.entries m, off2, log2) =>
            let off3 := match dEnd with
              | some p => if off2 < p then p else off2
              | none => off2
            .ok (.one (.vdict m), off3, log1 ++ log2)
          | .ok _ => .error "internal"
    | .runion info =>
      match (if info.uses_delimiter_header then
               let offA := offset + cdrPadding offset 4
               match read_delimiter_header view offA e with
               | none => none
               | some (length, offB) =>
                 some (some (offB + length), offB, ([(offA, 4)] : Log))
             else some (none, offset, ([] : Log))) with
      | none => .error "unpack_from out of range"
      | some (dEnd, off1, log1) =>
        if info.uses_member_header then
          .error "too many values to unpack"
        else
          let discField : PField :=
            ⟨UNION_DISCRIMINATOR_PROPERTY_KEY, info.definition.switch_type,
              none, false, none⟩
          let discInfo := build_field_info discField 0
          match readGo env e fuel (.rfield discInfo) view off1 with
          | .error m => .error m
          | .ok (.one disc, off2, log2) =>
            match union_case_field info.definition disc with
            | none =>
              let off3 := match dEnd with
                | some p => p
                | none => off2
              .ok (.one (.vdict [(UNION_DISCRIMINATOR_PROPERTY_KEY, disc)]),
                off3, log1 ++ log2)
            | some cf =>
              let cfInfo := build_field_info cf 0
              match readGo env e fuel (.rfield cfInfo) view off2 with
              | .error m => .error m
              | .ok (.one v, off3, log3) =>
                let off4 := match dEnd with
                  | some p => if off3 < p then p else off3
                  | none => off3
                .ok (.one (.vdict [(UNION_DISCRIMINATOR_PROPERTY_KEY, disc),
                    (cf.name, v)]), off4, log1 ++ log2 ++ log3)
              | .ok _ => .error "internal"
          | .ok _ => .error "internal"
    | .rfield f =>
      let t := f.type
      if f.is_array then
        readGo env e fuel (.rarray f (f.array_lengths.getD [])) view offset
      else if f.is_sequence then
        let offA := offset + cdrPadding offset 4
        match unpackNat e view offA 4 with
        | none => .error "unpack_from out of range"
        | some length =>
          if t = "string" || t = "wstring" then
            match readStringsLoop e t f.string_upper_bound length view
                (offA + 4) with
            | .error m => .error m
            | .ok (ss, off2, log2) =>
              .ok (.one (.vlist (ss.map Value.vstr)), off2, (offA, 4) :: log2)
          else if isPrimitive t then
            match readPrimBlock e t length view (offA + 4) with
            | .error m => .error m
            | .ok (v, off2, log2) => .ok (.one v, off2, (offA, 4) :: log2)
          else
            match lookupEnv env t with
            | none => .error "Unrecognized struct or union type"
            | some ci =>
              match readGo env e fuel (.rcomplexLoop ci length) view
                  (offA + 4) with
              | .error m => .error m
              | .ok (.many vs, off2, log2) =>
                .ok (.one (.vlist vs), off2, (offA, 4) :: log2)
              | .ok _ => .error "internal"
      else if t = "string" || t = "wstring" then
        match readOneString e t f.string_upper_bound view offset with
        | .error m => .error m
        | .ok (s, off1, log1) => .ok (.one (.vstr s), off1, log1)
      else if isPrimitive t then
        match readPrimField e t view offset with
        | .error m => .error m
        | .ok (v, off1, log1) => .ok (.one v, off1, log1)
      else
        match lookupEnv env t with
        | none => .error "Unrecognized struct or union type"
        | some (.structInfo s) => readGo env e fuel (.rstruct s) view offset
        | some (.unionInfo u) => readGo env e fuel (.runion u) view offset
    | .rarray f lengths =>
      match lengths with
      | [] => .error "IndexError"
      | n :: rest =>
        if rest.isEmpty then
          let t := f.type
          if t = "string" || t = "wstring" then
            match readStringsLoop e t f.string_upper_bound n view offset with
            | .error m => .error m
            | .ok (ss, off1, log1) =>
              .ok (.one (.vlist (ss.map Value.vstr)), off1, log1)
          else if isPrimitive t then
            match readPrimBlock e t n view offset with
            | .error m => .error m
            | .ok (v, off1, log1) => .ok (.one v, off1, log1)
          else
            match lookupEnv env t with
            | none => .error "Unrecognized struct or union type"
            | some ci =>
              match readGo env e fuel (.rcomplexLoop ci n) view offset with
              | .error m => .error m
              | .ok (.many vs, off1, log1) =>
                .ok (.one (.vlist vs), off1, log1)
              | .ok _ => .error "internal"
        else
          match readGo env e fuel (.rnested f rest n) view offset with
          | .error m => .error m
          | .ok (.many vs, off1, log1) => .ok (.one (.vlist vs), off1, log1)
          | .ok _ => .error "internal"
    | .rfields fds acc =>
      match fds with
      | [] => .ok (.entries acc, offset, [])
      | fld :: rest =>
        match readGo env e fuel (.rfield fld) view offset with
        | .error m => .error m
        | .ok (.one v, off1, log1) =>
          match readGo env e fuel (.rfields rest (dictSet acc fld.name v))
              view off1 with
          | .error m => .error m
          | .ok (.entries m2, off2, log2) =>
            .ok (.entries m2, off2, log1 ++ log2)
          | .ok _ => .error "internal"
        | .ok _ => .error "internal"
    | .rcomplexLoop ci count =>
      match count with
      | 0 => .ok (.many [], offset, [])
      | k + 1 =>
        match (match ci with
               | .structInfo s => readGo env e fuel (.rstruct s) view offset
               | .unionInfo u => readGo env e fuel (.runion u) view offset) with
        | .error m => .error m
        | .ok (.one v, off1, log1) =>
          match readGo env e fuel (.rcomplexLoop ci k) view off1 with
          | .error m => .error m
          | .ok (.many vs, off2, log2) =>
            .ok (.many (v :: vs), off2, log1 ++ log2)
          | .ok _ => .error "internal"
        | .ok _ => .error "internal"
    | .rnested f lengths count =>
      match count with
      | 0 => .ok (.many [], offset, [])
      | k + 1 =>
        match readGo env e fuel (.rarray f lengths) view offset with
        | .error m => .error m
        | .ok (.one v, off1, log1) =>
          match readGo env e fuel (.rnested f lengths k) view off1 with
          | .error m => .error m
          | .ok (.many vs, off2, log2) =>
            .ok (.many (v :: vs), off2, log1 ++ log2)
          | .ok _ => .error "internal"
        | .ok _ => .error "internal"

/-- Modelled from the spec: the encapsulation-kind codes of the spec
section 6 table (the `EncapsulationKind` enum of the missing
`message_writer.py`); constructing the enum from an unknown code raises. -/
def ENCAPSULATION_KINDS : List Nat :=
  [0x00, 0x01, 0x02, 0x03, 0x06, 0x07, 0x10, 0x11, 0x12, 0x13, 0x14, 0x15]

/-- Modelled from the spec: `_LITTLE_ENDIAN_KINDS` of the missing
`message_writer.py` — the little-endian rows of the spec section 6
table. -/
def LITTLE_ENDIAN_KINDS : List Nat :=
  [0x01, 0x03, 0x07, 0x11, 0x13, 0x15]

/-- The fields of a `MessageReader` instance after `__init__`: the
deserialization-info cache (here the plan arena), the root struct plan,
the format prefix (endianness) and the encapsulation kind.  `__init__`
sets `_fmt_prefix = "<"` and `encapsulation_kind = CDR_LE` (code 1). -/
structure ReaderState where
  cache : DeserEnv
  root_info : StructInfo
  fmt : Endian
  encapsulation_kind : Nat

/-- Embedding of `MessageReader.read_message`: reads byte 1 of the
buffer (raising `IndexError` when absent), constructs the encapsulation
kind (raising `ValueError` on unknown codes), assigns the instance
fields `encapsulation_kind` and `_fmt_prefix`, then reads the root
struct at offset 4.  The updated instance state is returned alongside
the result. -/
def readMessage (st : ReaderState) (buffer : Bytes) (fuel : Nat) :
    Except String Value × ReaderState :=
  match buffer.get? 1 with
  | none => (.error "IndexError", st)
  | some code =>
    if ENCAPSULATION_KINDS.contains code then
      let little := LITTLE_ENDIAN_KINDS.contains code
      let st1 : ReaderState :=
        { cache := st.cache
          root_info := st.root_info
          fmt := if little then .le else .be
          encapsulation_kind := code }
      (match readGo st1.cache st1.fmt fuel (.rstruct st1.root_info) buffer 4 with
       | .error m => .error m
       | .ok (.one v, _, _) => .ok v
       | .ok _ => .error "internal",
       st1)
    else
      (.error "ValueError: invalid EncapsulationKind", st)

example :
    (readMessage
      ⟨[], ⟨"A", false, false,
        [⟨"num", "int32", 1, false, none, false, none, none, none⟩,
         ⟨"flag", "uint8", 2, false, none, false, none, none, none⟩]⟩,
        .le, 1⟩
      [0, 1, 0, 0, 5, 0, 0, 0, 7] 9).1
    = .ok (.vdict [("num", .vint 5), ("flag", .vint 7)]) := rfl

/-- The `_fmt_prefix` value after `read_message` per the source: updated
from byte 1 of the buffer when it holds a valid encapsulation code,
unchanged when the read raises before the assignment. -/
def expectedFmt (st : ReaderState) (buffer : Bytes) : Endian :=
  match buffer.get? 1 with
  | some code =>
    if ENCAPSULATION_KINDS.contains code then
      if LITTLE_ENDIAN_KINDS.contains code then .le else .be
    else st.fmt
  | none => st.fmt

/-- The `encapsulation_kind` value after `read_message` per the source. -/
def expectedKind (st : ReaderState) (buffer : Bytes) : Nat :=
  match buffer.get? 1 with
  | some code =>
    if ENCAPSULATION_KINDS.contains code then code else st.encapsulation_kind
  | none => st.encapsulation_kind

/-- C9 (amended): `read_message` does mutate the reader instance, but
only its `_fmt_prefix` and `encapsulation_kind` fields, which are set
deterministically from byte 1 of the input buffer; the cache and the
root plan are the same after the call as before it, for every input
buffer. -/
theorem read_message_frame (st : ReaderState) (buffer : Bytes) (fuel : Nat) :
    (readMessage st buffer fuel).2.cache = st.cache
    ∧ (readMessage st buffer fuel).2.root_info = st.root_info
    ∧ (readMessage st buffer fuel).2.fmt = expectedFmt st buffer
    ∧ (readMessage st buffer fuel).2.encapsulation_kind
        = expectedKind st buffer := by
  unfold readMessage expectedFmt expectedKind
  cases hb : buffer.get? 1 with
  | none => refine ⟨?_, ?_, ?_, ?_⟩ <;> trivial
  | some code =>
    by_cases hk : ENCAPSULATION_KINDS.contains code = true
    · simp only [hk, if_true]
      refine ⟨?_, ?_, ?_, ?_⟩ <;> trivial
    · simp only [hk, Bool.false_eq_true, if_false]
      refine ⟨?_, ?_, ?_, ?_⟩ <;> trivial

/-- C9 counterexample: a reader constructed with `_fmt_prefix = "<"` and
`encapsulation_kind = CDR_LE` (code 1), then given a CDR_BE buffer
(byte 1 is 0), has a different `_fmt_prefix` after `read_message` than
before it — `read_message` mutates the instance. -/
theorem read_message_mutates_counterexample :
    (readMessage ⟨[], ⟨"A", false, false, []⟩, .le, 1⟩ [0, 0, 0, 0] 5).2.fmt
      = Endian.be
    ∧ (⟨[], ⟨"A", false, false, []⟩, .le, 1⟩ : ReaderState).fmt = Endian.le
    ∧ Endian.be ≠ Endian.le := by
  refine ⟨rfl, rfl, ?_⟩
  intro h
  exact Endian.noConfusion h

/-- C2: evidence of the member-header loop bug.  With a root plan in
parameter-list mode (`uses_delimiter_header` and `uses_member_header`
set) and a well-formed PL_CDR2_LE buffer — delimiter length 12, one
member header (id 1, size 4), the int32 value 42, and the sentinel
header — `read_message` raises `ValueError: too many values to unpack`
instead of looping over member headers until the sentinel: the source
destructures the 4-tuple of `read_member_header` into three names
(`field_id, size, new_offset = ...`), and would further compare the
sentinel's `None` member id against `0`. -/
theorem member_header_loop_code_bug :
    (readMessage
      ⟨[], ⟨"A", true, true,
        [⟨"num", "int32", 1, false, none, false, none, none, none⟩]⟩,
        .le, 1⟩
      [0, 0x13, 0, 0, 12, 0, 0, 0, 1, 0, 4, 0, 42, 0, 0, 0, 2, 0x3F, 0, 0]
      9).1
    = .error "too many values to unpack" := rfl

/-- UTF-8 encoding of one code point (the writer's `str.encode`). -/
def utf8EncodeChar (c : Nat) : Bytes :=
  if c < 0x80 then [c]
  else if c < 0x800 then [0xC0 + c / 64, 0x80 + c % 64]
  else if c < 0x10000 then
    [0xE0 + c / 4096, 0x80 + (c / 64) % 64, 0x80 + c % 64]
  else
    [0xF0 + c / 262144, 0x80 + (c / 4096) % 64, 0x80 + (c / 64) % 64,
     0x80 + c % 64]

/-- UTF-8 encoding of a string value. -/
def utf8Encode (cps : List Nat) : Bytes :=
  (cps.map utf8EncodeChar).flatten

/-- UTF-16LE encoding of one code point (surrogate pair above BMP). -/
def utf16leEncodeChar (c : Nat) : Bytes :=
  if c < 0x10000 then [c % 256, c / 256]
  else
    let cc := c - 0x10000
    let hi := 0xD800 + cc / 1024
    let lo := 0xDC00 + cc % 1024
    [hi % 256, hi / 256, lo % 256, lo / 256]

/-- UTF-16LE encoding of a string value. -/
def utf16leEncode (cps : List Nat) : Bytes :=
  (cps.map utf16leEncodeChar).flatten

/-- Modelled from the spec: whether an encapsulation kind's framing has a
delimiter header (spec section 6: PL_CDR2 and DELIMITED_CDR2 rows). -/
def kindUsesDelimiter (kind : Nat) : Bool :=
  kind = 0x12 || kind = 0x13 || kind = 0x14 || kind = 0x15

/-- Modelled from the spec: whether an encapsulation kind's framing has
member headers (spec section 6: the PL_CDR2 rows). -/
def kindUsesMember (kind : Nat) : Bool :=
  kind = 0x12 || kind = 0x13

/-- Raw unsigned integer the writer packs for a primitive value. -/
def encodePrimRaw (t : String) (v : Value) : Option Nat :=
  let size := primSize t
  match v with
  | .vint i => some ((i % ((2 : Int) ^ (8 * size))).toNat)
  | .vbool b => some (if b then 1 else 0)
  | .vfloat bits => some (bits % 2 ^ (8 * size))
  | _ => none

/-- Modelled from the spec: primitive write of the missing
`message_writer.py` (spec section 4.6: align to own width, zero padding
bytes, endian-specific encoding). -/
def writePrim (e : Endian) (t : String) (v : Value) (offset : Nat) :
    Except String (Bytes × Nat) :=
  let size := primSize t
  let pad := cdrPadding offset size
  match encodePrimRaw t v with
  | none => .error "not a primitive value"
  | some raw =>
    .ok (List.replicate pad 0 ++ packNat e size raw, offset + pad + size)

/-- Modelled from the spec: string write (spec section 4.6:
4-byte-aligned length including the nul, UTF-8 / UTF-16LE bytes, one or
two terminating zero bytes; `string_upper_bound` violations fail). -/
def writeString (e : Endian) (t : String) (sub : Option Nat) (v : Value)
    (offset : Nat) : Except String (Bytes × Nat) :=
  match v with
  | .vstr cps =>
    match sub with
    | some bound =>
      if bound < cps.length then .error "string length exceeds bound"
      else
        let payload := if t = "string" then utf8Encode cps ++ [0]
          else utf16leEncode cps ++ [0, 0]
        let pad := cdrPadding offset 4
        .ok (List.replicate pad 0 ++ packNat e 4 payload.length ++ payload,
          offset + pad + 4 + payload.length)
    | none =>
      let payload := if t = "string" then utf8Encode cps ++ [0]
        else utf16leEncode cps ++ [0, 0]
      let pad := cdrPadding offset 4
      .ok (List.replicate pad 0 ++ packNat e 4 payload.length ++ payload,
        offset + pad + 4 + payload.length)
  | _ => .error "not a string value"

/-- Row-major flattening of a (possibly nested) fixed-array value, one
level per array dimension. -/
def flattenValue : Nat → Value → List Value
  | 0, v => [v]
  | d + 1, v =>
    match v with
    | .vlist xs => (xs.map (flattenValue d)).flatten
    | _ => [v]

/-- Requests of the writer interpreter (spec sections 4.6). -/
inductive WriteReq where
  | wstruct (info : StructInfo) (v : Value)
  | wunion (info : UnionInfo) (v : Value)
  | wfield (f : FieldInfo) (v : Value)
  | wfieldsPlain (fds : List FieldInfo) (m : List (String × Value))
  | wfieldsPL (fds : List FieldInfo) (m : List (String × Value))
  | welems (t : String) (sub : Option Nat) (vs : List Value)

/-- Modelled from the spec: the serializer core of the missing
`message_writer.py` (spec section 4.6).  `pl` selects parameter-list
framing (delimiter + member headers + sentinel), `delim` a delimiter
header alone; both derive from the encapsulation kind.  Fields absent
from the input map take their default; bounded sequences and strings
fail when over their bound; fixed arrays are written back to back in
row-major order; unions write the discriminator then the matching case
(or the default case, or nothing).  Member headers use the short form
with the field's member id, as `write_member_header` does. -/
def writeGo (env : DeserEnv) (e : Endian) (pl delim : Bool) :
    Nat → WriteReq → Nat → Except String (Bytes × Nat)
  | 0, _, _ => .error "recursion limit"
  | fuel + 1, req, offset =>
    match req with
    | .wstruct info v =>
      match v with
      | .vdict m =>
        if pl then
          let pad := cdrPadding offset 4
          let offB := offset + pad + 4
          match writeGo env e pl delim fuel (.wfieldsPL info.fields m) offB with
          | .error msg => .error msg
          | .ok (body, offV) =>
            let spad := cdrPadding offV 4
            let sentinel := List.replicate spad 0
              ++ packNat e 2 SENTINEL_PID ++ packNat e 2 0
            let bodyLen := (offV + spad + 4) - offB
            .ok (List.replicate pad 0 ++ packNat e 4 bodyLen ++ body ++ sentinel,
              offV + spad + 4)
        else if delim then
          let pad := cdrPadding offset 4
          let offB := offset + pad + 4
          match writeGo env e pl delim fuel
              (.wfieldsPlain info.fields m) offB with
          | .error msg => .error msg
          | .ok (body, offV) =>
            .ok (List.replicate pad 0 ++ packNat e 4 (offV - offB) ++ body, offV)
        else
          writeGo env e pl delim fuel (.wfieldsPlain info.fields m) offset
      | _ => .error "not a dict value"
    | .wunion info v =>
      match v with
      | .vdict m =>
        match m.lookup UNION_DISCRIMINATOR_PROPERTY_KEY with
        | none => .error "missing discriminator"
        | some disc =>
          match writePrim e info.definition.switch_type disc offset with
          | .error msg => .error msg
          | .ok (db, off1) =>
            match union_case_field info.definition disc with
            | none => .ok (db, off1)
            | some cf =>
              let cfInfo := build_field_info cf 0
              let cv := (m.lookup cf.name).getD
                (fieldDefault env fuel cfInfo)
              match writeGo env e pl delim fuel (.wfield cfInfo cv) off1 with
              | .error msg => .error msg
              | .ok (vb, off2) => .ok (db ++ vb, off2)
      | _ => .error "not a dict value"
    | .wfield f v =>
      let t := f.type
      if f.is_array then
        writeGo env e pl delim fuel
          (.welems t f.string_upper_bound
            (flattenValue (f.array_lengths.getD []).length v)) offset
      else if f.is_sequence then
        match v with
        | .vlist xs =>
          match f.sequence_bound with
          | some bound =>
            if bound < xs.length then .error "sequence length exceeds bound"
            else
              let pad := cdrPadding offset 4
              match writeGo env e pl delim fuel
                  (.welems t f.string_upper_bound xs)
                  (offset + pad + 4) with
              | .error msg => .error msg
              | .ok (eb, off1) =>
                .ok (List.replicate pad 0 ++ packNat e 4 xs.length ++ eb, off1)
          | none =>
            let pad := cdrPadding offset 4
            match writeGo env e pl delim fuel
                (.welems t f.string_upper_bound xs) (offset + pad + 4) with
            | .error msg => .error msg
            | .ok (eb, off1) =>
              .ok (List.replicate pad 0 ++ packNat e 4 xs.length ++ eb, off1)
        | _ => .error "not a sequence value"
      else if t = "string" || t = "wstring" then
        writeString e t f.string_upper_bound v offset
      else if isPrimitive t then
        writePrim e t v offset
      else
        match lookupEnv env t with
        | none => .error "Unrecognized struct or union type"
        | some (.structInfo s) => writeGo env e pl delim fuel (.wstruct s v) offset
        | some (.unionInfo u) => writeGo env e pl delim fuel (.wunion u v) offset
    | .wfieldsPlain fds m =>
      match fds with
      | [] => .ok ([], offset)
      | f :: rest =>
        let v := (m.lookup f.name).getD (fieldDefault env fuel f)
        match writeGo env e pl delim fuel (.wfield f v) offset with
        | .error msg => .error msg
        | .ok (b1, off1) =>
          match writeGo env e pl delim fuel (.wfieldsPlain rest m) off1 with
          | .error msg => .error msg
          | .ok (b2, off2) => .ok (b1 ++ b2, off2)
    | .wfieldsPL fds m =>
      match fds with
      | [] => .ok ([], offset)
      | f :: rest =>
        let v := (m.lookup f.name).getD (fieldDefault env fuel f)
        let pad := cdrPadding offset 4
        let offV := offset + pad + 4
        match writeGo env e pl delim fuel (.wfield f v) offV with
        | .error msg => .error msg
        | .ok (vb, off1) =>
          let header := List.replicate pad 0
            ++ packNat e 2 (f.id % 2 ^ 14) ++ packNat e 2 ((off1 - offV) % 2 ^ 16)
          match writeGo env e pl delim fuel (.wfieldsPL rest m) off1 with
          | .error msg => .error msg
          | .ok (b2, off2) => .ok (header ++ vb ++ b2, off2)
    | .welems t sub vs =>
      match vs with
      | [] => .ok ([], offset)
      | v :: rest =>
        match (if t = "string" || t = "wstring" then writeString e t sub v offset
               else if isPrimitive t then writePrim e t v offset
               else
                 match lookupEnv env t with
                 | none => .error "Unrecognized struct or union type"
                 | some (.structInfo s) =>
                   writeGo env e pl delim fuel (.wstruct s v) offset
                 | some (.unionInfo u) =>
                   writeGo env e pl delim fuel (.wunion u v) offset) with
        | .error msg => .error msg
        | .ok (b1, off1) =>
          match writeGo env e pl delim fuel (.welems t sub rest) off1 with
          | .error msg => .error msg
          | .ok (b2, off2) => .ok (b1 ++ b2, off2)

/-- Modelled from the spec: `MessageWriter.write_message` of the missing
`message_writer.py` — the four-byte encapsulation header `[0, kind, 0, 0]`
followed by the root struct serialized at offset 4 with the framing the
kind selects. -/
def writeMessage (env : DeserEnv) (root : StructInfo) (kind : Nat)
    (v : Value) (fuel : Nat) : Except String Bytes :=
  let e := if LITTLE_ENDIAN_KINDS.contains kind then Endian.le else Endian.be
  match writeGo env e (kindUsesMember kind) (kindUsesDelimiter kind) fuel
      (.wstruct root v) 4 with
  | .error m => .error m
  | .ok (body, _) => .ok ([0, kind, 0, 0] ++ body)

example :
    writeMessage [] ⟨"A", false, false,
        [⟨"num", "int32", 1, false, none, false, none, none, none⟩,
         ⟨"flag", "uint8", 2, false, none, false, none, none, none⟩]⟩ 1
      (.vdict [("num", .vint 5), ("flag", .vint 7)]) 9
    = .ok [0, 1, 0, 0, 5, 0, 0, 0, 7] := rfl

example :
    writeMessage [] ⟨"A", true, true,
        [⟨"num", "int32", 1, false, none, false, none, none, none⟩]⟩ 0x13
      (.vdict [("num", .vint 42)]) 9
    = .ok [0, 0x13, 0, 0, 12, 0, 0, 0, 1, 0, 4, 0, 42, 0, 0, 0, 2, 0x3F, 0, 0] := rfl

/-- C1: roundtrip divergence for parameter-list framing.  The spec
(section 6) requires the writer to support PL_CDR2_LE (code `0x13`); the
modelled writer serializes `struct A { int32 num; }` with value
`{num: 42}` to the delimiter + member header + sentinel framing shown.
The reader from the source cannot decode it: its plan flags are fixed at
construction (`__init__` builds the cache with no encapsulation
selection and initializes the instance to CDR_LE), so it decodes the
buffer as plain CDR and returns the delimiter length 12 as the field
value — and had the plan flags been set instead, its member-header loop
raises (see `member_header_loop_code_bug`).  Either way
`read_message(write_message(v))` is not `v` for this supported kind. -/
theorem pl_cdr2_roundtrip_code_bug :
    writeMessage [] ⟨"A", true, true,
        [⟨"num", "int32", 1, false, none, false, none, none, none⟩]⟩ 0x13
      (.vdict [("num", .vint 42)]) 9
      = .ok [0, 0x13, 0, 0, 12, 0, 0, 0, 1, 0, 4, 0, 42, 0, 0, 0, 2, 0x3F, 0, 0]
    ∧ (readMessage
        ⟨[], ⟨"A", false, false,
          [⟨"num", "int32", 1, false, none, false, none, none, none⟩]⟩,
          .le, 1⟩
        [0, 0x13, 0, 0, 12, 0, 0, 0, 1, 0, 4, 0, 42, 0, 0, 0, 2, 0x3F, 0, 0]
        9).1
      = .ok (.vdict [("num", .vint 12)])
    ∧ (Value.vdict [("num", .vint 12)]) ≠ (Value.vdict [("num", .vint 42)]) := by
  refine ⟨rfl, rfl, ?_⟩
  intro h
  simp only [Value.vdict.injEq, List.cons.injEq, Prod.mk.injEq,
    Value.vint.injEq, and_true, true_and] at h
  exact absurd h (by decide)

/-- Every primitive read in a log is at least 4 bytes in (past the
encapsulation header), has positive width, and is aligned to its width
relative to byte 4 of the buffer. -/
def AlignedLog (log : Log) : Prop :=
  ∀ p ∈ log, 4 ≤ p.1 ∧ 0 < p.2 ∧ (p.1 - 4) % p.2 = 0

theorem alignedLog_nil : AlignedLog [] := by
  intro p hp
  simp at hp

theorem alignedLog_append (l1 l2 : Log) (h1 : AlignedLog l1)
    (h2 : AlignedLog l2) : AlignedLog (l1 ++ l2) := by
  intro p hp
  rcases List.mem_append.mp hp with h | h
  · exact h1 p h
  · exact h2 p h

theorem alignedLog_cons (q : Nat × Nat) (l : Log)
    (hq : 4 ≤ q.1 ∧ 0 < q.2 ∧ (q.1 - 4) % q.2 = 0) (h : AlignedLog l) :
    AlignedLog (q :: l) := by
  intro p hp
  rcases List.mem_cons.mp hp with h' | h'
  · rw [h']; exact hq
  · exact h p h'

theorem pad_align (off w : Nat) (hw : 0 < w) (h4 : 4 ≤ off) :
    (off + cdrPadding off w - 4) % w = 0 := by
  unfold cdrPadding
  by_cases ha : (off - 4) % w = 0
  · simp [ha]
  · have hlt : (off - 4) % w < w := Nat.mod_lt _ hw
    simp only [ha, ite_false]
    have heq : off + (w - (off - 4) % w) - 4
        = w * ((off - 4) / w) + ((off - 4) % w + (w - (off - 4) % w)) := by
      have hdm := Nat.div_add_mod (off - 4) w
      omega
    have h2 : (off - 4) % w + (w - (off - 4) % w) = w := by omega
    rw [heq, h2]
    simp [Nat.add_mod, Nat.mul_mod_right]

theorem lookup_pos (l : List (String × Nat)) (hl : ∀ p ∈ l, 0 < p.2)
    (t : String) (h : (l.lookup t).isSome = true) :
    0 < (l.lookup t).getD 0 := by
  induction l with
  | nil => simp [List.lookup] at h
  | cons q rest ih =>
    rw [List.lookup] at h ⊢
    by_cases hq : (t == q.1) = true
    · simp only [hq]
      exact hl q (by simp)
    · rw [Bool.not_eq_true] at hq
      simp only [hq] at h ⊢
      exact ih (fun p hp => hl p (List.mem_cons_of_mem _ hp)) h

theorem primSize_pos (t : String) (h : isPrimitive t = true) :
    0 < primSize t := by
  unfold isPrimitive at h
  unfold primSize
  exact lookup_pos PRIMITIVE_SIZES (by decide) t h

theorem readPrimField_aligned (e : Endian) (t : String) (view : Bytes)
    (off0 : Nat) (v : Value) (off2 : Nat) (log : Log)
    (hp : isPrimitive t = true) (h4 : 4 ≤ off0)
    (h : readPrimField e t view off0 = .ok (v, off2, log)) :
    4 ≤ off2 ∧ AlignedLog log := by
  have hsz := primSize_pos t hp
  simp only [readPrimField] at h
  split at h
  · exact Except.noConfusion h
  · simp only [Except.ok.injEq, Prod.mk.injEq] at h
    obtain ⟨hv, hoff, hlog⟩ := h
    rw [← hlog, ← hoff]
    exact ⟨by omega,
      alignedLog_cons _ _ ⟨by omega, hsz, pad_align off0 (primSize t) hsz h4⟩
        alignedLog_nil⟩

theorem readOneString_aligned (e : Endian) (t : String) (sub : Option Nat)
    (view : Bytes) (off0 : Nat) (s : List Nat) (off2 : Nat) (log : Log)
    (h4 : 4 ≤ off0)
    (h : readOneString e t sub view off0 = .ok (s, off2, log)) :
    4 ≤ off2 ∧ AlignedLog log := by
  have hfin : ∀ (len : Nat), off0 + cdrPadding off0 4 + 4 + len = off2 →
      [(off0 + cdrPadding off0 4, 4)] = log → 4 ≤ off2 ∧ AlignedLog log := by
    intro len hoff hlog
    rw [← hlog, ← hoff]
    exact ⟨by omega,
      alignedLog_cons _ _ ⟨by omega, by omega, pad_align off0 4 (by omega) h4⟩
        alignedLog_nil⟩
  simp only [readOneString] at h
  split at h
  · exact Except.noConfusion h
  · split at h
    · exact Except.noConfusion h
    · split at h
      · split at h
        · exact Except.noConfusion h
        · simp only [Except.ok.injEq, Prod.mk.injEq] at h
          exact hfin _ h.2.1 h.2.2
      · simp only [Except.ok.injEq, Prod.mk.injEq] at h
        exact hfin _ h.2.1 h.2.2

theorem readStringsLoop_aligned (e : Endian) (t : String) (sub : Option Nat) :
    ∀ (count : Nat) (view : Bytes) (off0 : Nat) (ss : List (List Nat))
      (off2 : Nat) (log : Log), 4 ≤ off0 →
      readStringsLoop e t sub count view off0 = .ok (ss, off2, log) →
      4 ≤ off2 ∧ AlignedLog log := by
  intro count
  induction count with
  | zero =>
    intro view off0 ss off2 log h4 h
    simp only [readStringsLoop] at h
    simp only [Except.ok.injEq, Prod.mk.injEq] at h
    obtain ⟨_, hoff, hlog⟩ := h
    rw [← hlog, ← hoff]
    exact ⟨h4, alignedLog_nil⟩
  | succ k ih =>
    intro view off0 ss off2 log h4 h
    simp only [readStringsLoop] at h
    split at h
    · exact Except.noConfusion h
    · rename_i r1 s1 off1 log1 heq1
      split at h
      · exact Except.noConfusion h
      · rename_i r2 ss2 off2' log2 heq2
        simp only [Except.ok.injEq, Prod.mk.injEq] at h
        obtain ⟨_, hoff, hlog⟩ := h
        rw [← hlog, ← hoff]
        obtain ⟨ho1, hl1⟩ :=
          readOneString_aligned e t sub view off0 s1 off1 log1 h4 heq1
        obtain ⟨ho2, hl2⟩ := ih view off1 ss2 off2' log2 ho1 heq2
        exact ⟨ho2, alignedLog_append log1 log2 hl1 hl2⟩

theorem readPrimBlock_aligned (e : Endian) (t : String) (count : Nat)
    (view : Bytes) (off0 : Nat) (v : Value) (off2 : Nat) (log : Log)
    (hp : isPrimitive t = true) (h4 : 4 ≤ off0)
    (h : readPrimBlock e t count view off0 = .ok (v, off2, log)) :
    4 ≤ off2 ∧ AlignedLog log := by
  have hsz := primSize_pos t hp
  simp only [readPrimBlock] at h
  split at h
  · simp only [Except.ok.injEq, Prod.mk.injEq] at h
    obtain ⟨hv, hoff, hlog⟩ := h
    rw [← hlog, ← hoff]
    refine ⟨by omega, ?_⟩
    intro p hpmem
    obtain ⟨k, hk, hpk⟩ := List.mem_map.mp hpmem
    rw [← hpk]
    refine ⟨by omega, hsz, ?_⟩
    have heq : off0 + cdrPadding off0 (primSize t) + k * primSize t - 4
        = (off0 + cdrPadding off0 (primSize t) - 4) + k * primSize t := by
      omega
    rw [heq, Nat.add_mul_mod_self_right]
    exact pad_align off0 (primSize t) hsz h4
  · exact Except.noConfusion h

theorem read_delimiter_header_shape (view : Bytes) (off : Nat) (e : Endian)
    (length offB : Nat)
    (h : read_delimiter_header view off e = some (length, offB)) :
    offB = off + 4 := by
  unfold read_delimiter_header at h
  cases hu : unpackNat e view off 4 with
  | none => rw [hu] at h; exact Option.noConfusion h
  | some sz =>
    rw [hu] at h
    simp only [Option.map_some', Option.some.injEq, Prod.mk.injEq] at h
    exact h.2.symm

theorem readGo_aligned (env : DeserEnv) (e : Endian) :
    ∀ (fuel : Nat) (req : ReadReq) (view : Bytes) (off : Nat)
      (res : ReadRes) (off2 : Nat) (log : Log), 4 ≤ off →
      readGo env e fuel req view off = .ok (res, off2, log) →
      4 ≤ off2 ∧ AlignedLog log := by
  intro fuel
  induction fuel with
  | zero =>
    intro req view off res off2 log h4 h
    simp only [readGo] at h
    exact Except.noConfusion h
  | succ n ih =>
    intro req view off res off2 log h4 h
    cases req with
    | rstruct info =>
      simp only [readGo] at h
      split at h
      · exact Except.noConfusion h
      · rename_i dEnd off1 log1 hstage
        have hst : 4 ≤ off1 ∧ AlignedLog log1 ∧ ∀ p, dEnd = some p → 4 ≤ p := by
          split at hstage
          · split at hstage
            · exact Option.noConfusion hstage
            · rename_i length offB hd
              have hB := read_delimiter_header_shape view _ e length offB hd
              simp only [Option.some.injEq, Prod.mk.injEq] at hstage
              obtain ⟨hE, hO, hL⟩ := hstage
              rw [← hO, ← hL]
              refine ⟨by omega,
                alignedLog_cons _ _
                  ⟨by omega, by omega, pad_align off 4 (by omega) h4⟩
                  alignedLog_nil, ?_⟩
              intro p hp
              rw [← hE] at hp
              injection hp with hp'
              omega
          · simp only [Option.some.injEq, Prod.mk.injEq] at hstage
            obtain ⟨hE, hO, hL⟩ := hstage
            rw [← hO, ← hL]
            refine ⟨h4, alignedLog_nil, ?_⟩
            intro p hp
            rw [← hE] at hp
            exact Option.noConfusion hp
        obtain ⟨ho1, hl1, hEnd⟩ := hst
        split at h
        · exact Except.noConfusion h
        · split at h
          · exact Except.noConfusion h
          · rename_i m off2' log2 hrec
            simp only [Except.ok.injEq, Prod.mk.injEq] at h
            obtain ⟨hres, hoff, hlog⟩ := h
            obtain ⟨hro, hrl⟩ := ih _ view off1 _ off2' log2 ho1 hrec
            rw [← hlog, ← hoff]
            constructor
            · cases dEnd with
              | none => exact hro
              | some p =>
                have hp4 := hEnd p rfl
                dsimp only
                split <;> omega
            · exact alignedLog_append _ _ hl1 hrl
          · exact Except.noConfusion h
    | runion info =>
      simp only [readGo] at h
      split at h
      · exact Except.noConfusion h
      · rename_i dEnd off1 log1 hstage
        have hst : 4 ≤ off1 ∧ AlignedLog log1 ∧ ∀ p, dEnd = some p → 4 ≤ p := by
          split at hstage
          · split at hstage
            · exact Option.noConfusion hstage
            · rename_i length offB hd
              have hB := read_delimiter_header_shape view _ e length offB hd
              simp only [Option.some.injEq, Prod.mk.injEq] at hstage
              obtain ⟨hE, hO, hL⟩ := hstage
              rw [← hO, ← hL]
              refine ⟨by omega,
                alignedLog_cons _ _
                  ⟨by omega, by omega, pad_align off 4 (by omega) h4⟩
                  alignedLog_nil, ?_⟩
              intro p hp
              rw [← hE] at hp
              injection hp with hp'
              omega
          · simp only [Option.some.injEq, Prod.mk.injEq] at hstage
            obtain ⟨hE, hO, hL⟩ := hstage
            rw [← hO, ← hL]
            refine ⟨h4, alignedLog_nil, ?_⟩
            intro p hp
            rw [← hE] at hp
            exact Option.noConfusion hp
        obtain ⟨ho1, hl1, hEnd⟩ := hst
        split at h
        · exact Except.noConfusion h
        · split at h
          · exact Except.noConfusion h
          · rename_i disc off2' log2 hdisc
            obtain ⟨hdo, hdl⟩ := ih _ view off1 _ off2' log2 ho1 hdisc
            split at h
            · simp only [Except.ok.injEq, Prod.mk.injEq] at h
              obtain ⟨hres, hoff, hlog⟩ := h
              rw [← hlog, ← hoff]
              constructor
              · cases dEnd with
                | none => exact hdo
                | some p => exact hEnd p rfl
              · exact alignedLog_append _ _ hl1 hdl
            · rename_i cf hcf
              split at h
              · exact Except.noConfusion h
              · rename_i v off3' log3 hcase
                obtain ⟨hco, hcl⟩ := ih _ view off2' _ off3' log3 hdo hcase
                simp only [Except.ok.injEq, Prod.mk.injEq] at h
                obtain ⟨hres, hoff, hlog⟩ := h
                rw [← hlog, ← hoff]
                constructor
                · cases dEnd with
                  | none => exact hco
                  | some p =>
                    have hp4 := hEnd p rfl
                    dsimp only
                    split <;> omega
                · exact alignedLog_append _ _
                    (alignedLog_append _ _ hl1 hdl) hcl
              · exact Except.noConfusion h
          · exact Except.noConfusion h
    | rfield f =>
      simp only [readGo] at h
      split at h
      · exact ih _ view off res off2 log h4 h
      · split at h
        · split at h
          · exact Except.noConfusion h
          · rename_i length hlen
            split at h
            · split at h
              · exact Except.noConfusion h
              · rename_i ss off2' log2 hloop
                simp only [Except.ok.injEq, Prod.mk.injEq] at h
                obtain ⟨hres, hoff, hlog⟩ := h
                obtain ⟨hlo, hll⟩ := readStringsLoop_aligned e f.type
                  f.string_upper_bound length view _ ss off2' log2
                  (by omega) hloop
                rw [← hlog, ← hoff]
                exact ⟨hlo, alignedLog_cons _ _
                  ⟨by omega, by omega, pad_align off 4 (by omega) h4⟩ hll⟩
            · split at h
              · split at h
                · exact Except.noConfusion h
                · rename_i v off2' log2 hblock
                  rename_i hprim _
                  simp only [Except.ok.injEq, Prod.mk.injEq] at h
                  obtain ⟨hres, hoff, hlog⟩ := h
                  obtain ⟨hbo, hbl⟩ := readPrimBlock_aligned e f.type length
                    view _ v off2' log2 hprim (by omega) hblock
                  rw [← hlog, ← hoff]
                  exact ⟨hbo, alignedLog_cons _ _
                    ⟨by omega, by omega, pad_align off 4 (by omega) h4⟩ hbl⟩
              · split at h
                · exact Except.noConfusion h
                · split at h
                  · exact Except.noConfusion h
                  · rename_i vs off2' log2 hloop
                    simp only [Except.ok.injEq, Prod.mk.injEq] at h
                    obtain ⟨hres, hoff, hlog⟩ := h
                    obtain ⟨hlo, hll⟩ := ih _ view _ _ off2' log2
                      (by omega) hloop
                    rw [← hlog, ← hoff]
                    exact ⟨hlo, alignedLog_cons _ _
                      ⟨by omega, by omega, pad_align off 4 (by omega) h4⟩ hll⟩
                  · exact Except.noConfusion h
        · split at h
          · split at h
            · exact Except.noConfusion h
            · rename_i s off1 log1 hone
              simp only [Except.ok.injEq, Prod.mk.injEq] at h
              obtain ⟨hres, hoff, hlog⟩ := h
              obtain ⟨hso, hsl⟩ := readOneString_aligned e f.type
                f.string_upper_bound view off s off1 log1 h4 hone
              rw [← hlog, ← hoff]
              exact ⟨hso, hsl⟩
          · split at h
            · split at h
              · exact Except.noConfusion h
              · rename_i v off1 log1 hprimf
                rename_i hprim _
                simp only [Except.ok.injEq, Prod.mk.injEq] at h
                obtain ⟨hres, hoff, hlog⟩ := h
                obtain ⟨hpo, hpl⟩ := readPrimField_aligned e f.type view off
                  v off1 log1 hprim h4 hprimf
                rw [← hlog, ← hoff]
                exact ⟨hpo, hpl⟩
            · split at h
              · exact Except.noConfusion h
              · exact ih _ view off res off2 log h4 h
              · exact ih _ view off res off2 log h4 h
    | rarray f lengths =>
      simp only [readGo] at h
      split at h
      · exact Except.noConfusion h
      · rename_i nn rest
        split at h
        · split at h
          · split at h
            · exact Except.noConfusion h
            · rename_i ss off1 log1 hloop
              simp only [Except.ok.injEq, Prod.mk.injEq] at h
              obtain ⟨hres, hoff, hlog⟩ := h
              obtain ⟨hlo, hll⟩ := readStringsLoop_aligned e f.type
                f.string_upper_bound nn view off ss off1 log1 h4 hloop
              rw [← hlog, ← hoff]
              exact ⟨hlo, hll⟩
          · split at h
            · split at h
              · exact Except.noConfusion h
              · rename_i v off1 log1 hblock
                rename_i hprim _
                simp only [Except.ok.injEq, Prod.mk.injEq] at h
                obtain ⟨hres, hoff, hlog⟩ := h
                obtain ⟨hbo, hbl⟩ := readPrimBlock_aligned e f.type nn view
                  off v off1 log1 hprim h4 hblock
                rw [← hlog, ← hoff]
                exact ⟨hbo, hbl⟩
            · split at h
              · exact Except.noConfusion h
              · split at h
                · exact Except.noConfusion h
                · rename_i vs off1 log1 hloop
                  simp only [Except.ok.injEq, Prod.mk.injEq] at h
                  obtain ⟨hres, hoff, hlog⟩ := h
                  obtain ⟨hlo, hll⟩ := ih _ view off _ off1 log1 h4 hloop
                  rw [← hlog, ← hoff]
                  exact ⟨hlo, hll⟩
                · exact Except.noConfusion h
        · split at h
          · exact Except.noConfusion h
          · rename_i vs off1 log1 hnest
            simp only [Except.ok.injEq, Prod.mk.injEq] at h
            obtain ⟨hres, hoff, hlog⟩ := h
            obtain ⟨hno, hnl⟩ := ih _ view off _ off1 log1 h4 hnest
            rw [← hlog, ← hoff]
            exact ⟨hno, hnl⟩
          · exact Except.noConfusion h
    | rfields fds acc =>
      simp only [readGo] at h
      split at h
      · simp only [Except.ok.injEq, Prod.mk.injEq] at h
        obtain ⟨hres, hoff, hlog⟩ := h
        rw [← hlog, ← hoff]
        exact ⟨h4, alignedLog_nil⟩
      · split at h
        · exact Except.noConfusion h
        · rename_i v off1 log1 hfld
          obtain ⟨hfo, hfl⟩ := ih _ view off _ off1 log1 h4 hfld
          split at h
          · exact Except.noConfusion h
          · rename_i m2 off2' log2 hrest
            obtain ⟨hro, hrl⟩ := ih _ view off1 _ off2' log2 hfo hrest
            simp only [Except.ok.injEq, Prod.mk.injEq] at h
            obtain ⟨hres, hoff, hlog⟩ := h
            rw [← hlog, ← hoff]
            exact ⟨hro, alignedLog_append _ _ hfl hrl⟩
          · exact Except.noConfusion h
        · exact Except.noConfusion h
    | rcomplexLoop ci count =>
      cases count with
      | zero =>
        simp only [readGo] at h
        simp only [Except.ok.injEq, Prod.mk.injEq] at h
        obtain ⟨hres, hoff, hlog⟩ := h
        rw [← hlog, ← hoff]
        exact ⟨h4, alignedLog_nil⟩
      | succ k =>
        cases ci with
        | structInfo s =>
          simp only [readGo] at h
          split at h
          · exact Except.noConfusion h
          · rename_i v off1 log1 helem
            obtain ⟨heo, hel⟩ := ih _ view off _ off1 log1 h4 helem
            split at h
            · exact Except.noConfusion h
            · rename_i vs off2' log2 hrest
              obtain ⟨hro, hrl⟩ := ih _ view off1 _ off2' log2 heo hrest
              simp only [Except.ok.injEq, Prod.mk.injEq] at h
              obtain ⟨hres, hoff, hlog⟩ := h
              rw [← hlog, ← hoff]
              exact ⟨hro, alignedLog_append _ _ hel hrl⟩
            · exact Except.noConfusion h
          · exact Except.noConfusion h
        | unionInfo u =>
          simp only [readGo] at h
          split at h
          · exact Except.noConfusion h
          · rename_i v off1 log1 helem
            obtain ⟨heo, hel⟩ := ih _ view off _ off1 log1 h4 helem
            split at h
            · exact Except.noConfusion h
            · rename_i vs off2' log2 hrest
              obtain ⟨hro, hrl⟩ := ih _ view off1 _ off2' log2 heo hrest
              simp only [Except.ok.injEq, Prod.mk.injEq] at h
              obtain ⟨hres, hoff, hlog⟩ := h
              rw [← hlog, ← hoff]
              exact ⟨hro, alignedLog_append _ _ hel hrl⟩
            · exact Except.noConfusion h
          · exact Except.noConfusion h
    | rnested f lengths count =>
      cases count with
      | zero =>
        simp only [readGo] at h
        simp only [Except.ok.injEq, Prod.mk.injEq] at h
        obtain ⟨hres, hoff, hlog⟩ := h
        rw [← hlog, ← hoff]
        exact ⟨h4, alignedLog_nil⟩
      | succ k =>
        simp only [readGo] at h
        split at h
        · exact Except.noConfusion h
        · rename_i v off1 log1 helem
          obtain ⟨heo, hel⟩ := ih _ view off _ off1 log1 h4 helem
          split at h
          · exact Except.noConfusion h
          · rename_i vs off2' log2 hrest
            obtain ⟨hro, hrl⟩ := ih _ view off1 _ off2' log2 heo hrest
            simp only [Except.ok.injEq, Prod.mk.injEq] at h
            obtain ⟨hres, hoff, hlog⟩ := h
            rw [← hlog, ← hoff]
            exact ⟨hro, alignedLog_append _ _ hel hrl⟩
          · exact Except.noConfusion h
        · exact Except.noConfusion h

/-- C8: throughout deserialization of any message (the reader starts at
offset 4, right after the encapsulation header), every primitive value
of byte width W is read at a buffer offset satisfying
`(offset - 4) % W = 0`; the padding skipped before each primitive read
(`_padding`) computes alignment relative to byte 4 of the buffer.  The
log records one `(offset, width)` entry per `struct.unpack_from` call
(and per element of bulk primitive-array reads). -/
theorem read_message_primitive_alignment (env : DeserEnv) (e : Endian)
    (fuel : Nat) (info : StructInfo) (view : Bytes) (res : ReadRes)
    (off2 : Nat) (log : Log)
    (h : readGo env e fuel (.rstruct info) view 4 = .ok (res, off2, log)) :
    ∀ p ∈ log, 4 ≤ p.1 ∧ 0 < p.2 ∧ (p.1 - 4) % p.2 = 0 :=
  (readGo_aligned env e fuel (.rstruct info) view 4 res off2 log
    (by omega) h).2

/-- Witness for `read_message_primitive_alignment` on the spec's S1
example `struct A { int32 num; uint8 flag; }` at buffer
`00 01 00 00 05 00 00 00 07`: the reads are an int32 at offset 4 and a
uint8 at offset 8; the second logged read `(8, 1)` is aligned. -/
theorem read_message_primitive_alignment_witness :
    4 ≤ 8 ∧ 0 < 1 ∧ (8 - 4) % 1 = 0 :=
  read_message_primitive_alignment [] .le 9
    ⟨"A", false, false,
      [⟨"num", "int32", 1, false, none, false, none, none, none⟩,
       ⟨"flag", "uint8", 2, false, none, false, none, none, none⟩]⟩
    [0, 1, 0, 0, 5, 0, 0, 0, 7]
    (.one (.vdict [("num", .vint 5), ("flag", .vint 7)])) 9
    [(4, 4), (8, 1)] rfl (8, 1) (by decide)

/-- All strings inside a value (itself a string or arbitrarily nested
lists of strings, as produced for string fields, string arrays and
string sequences) are within the given character bound when one is
set. -/
inductive StrsWithin (bound : Option Nat) : Value → Prop where
  | vint (i : Int) : StrsWithin bound (.vint i)
  | vbool (b : Bool) : StrsWithin bound (.vbool b)
  | vfloat (n : Nat) : StrsWithin bound (.vfloat n)
  | vdict (m : List (String × Value)) : StrsWithin bound (.vdict m)
  | vstr (s : List Nat) (h : ∀ b, bound = some b → s.length ≤ b) :
      StrsWithin bound (.vstr s)
  | vlist (xs : List Value) (h : ∀ x ∈ xs, StrsWithin bound x) :
      StrsWithin bound (.vlist xs)

mutual
/-- The string-bound guarantee the reader establishes for the value
decoded for a field plan: a string/wstring field's value (single or any
nesting of arrays/sequences) respects the field's
`string_upper_bound`; primitive fields carry no strings; complex fields
satisfy the guarantee of their referenced plan.  The negative guards
mirror the reader's dispatch order, so at a string-typed field only the
`ofString` constructor applies. -/
inductive FieldOk (env : DeserEnv) : FieldInfo → Value → Prop where
  | ofString (f : FieldInfo) (v : Value)
      (ht : f.type = "string" ∨ f.type = "wstring")
      (hs : StrsWithin f.string_upper_bound v) : FieldOk env f v
  | ofPrim (f : FieldInfo) (v : Value)
      (ht : ¬(f.type = "string" ∨ f.type = "wstring"))
      (hp : isPrimitive f.type = true) : FieldOk env f v
  | ofComplex (f : FieldInfo) (v : Value) (ci : ComplexInfo)
      (ht : ¬(f.type = "string" ∨ f.type = "wstring"))
      (hp : isPrimitive f.type = false)
      (hci : lookupEnv env f.type = some ci) (hv : ValOk env ci v) :
      FieldOk env f v
  | ofUnknown (f : FieldInfo) (v : Value)
      (ht : ¬(f.type = "string" ∨ f.type = "wstring"))
      (hp : isPrimitive f.type = false)
      (hci : lookupEnv env f.type = none) : FieldOk env f v

/-- The string-bound guarantee for a decoded struct/union value (or a
list of them, for sequences and arrays of complex types): every entry of
a decoded struct dict is the value decoded for one of the plan's fields
of that name and satisfies that field's guarantee. -/
inductive ValOk (env : DeserEnv) : ComplexInfo → Value → Prop where
  | listOk (ci : ComplexInfo) (xs : List Value)
      (h : ∀ x ∈ xs, ValOk env ci x) : ValOk env ci (.vlist xs)
  | structOk (s : StructInfo) (m : List (String × Value))
      (h : ∀ k v, m.lookup k = some v → EntryOk env s.fields k v) :
      ValOk env (.structInfo s) (.vdict m)
  | unionOk (u : UnionInfo) (v : Value) : ValOk env (.unionInfo u) v

/-- Structural form of "some field of the list has this name and its
guarantee holds for this value". -/
inductive EntryOk (env : DeserEnv) :
    List FieldInfo → String → Value → Prop where
  | here (f : FieldInfo) (fs : List FieldInfo) (k : String) (v : Value)
      (hn : f.name = k) (hv : FieldOk env f v) : EntryOk env (f :: fs) k v
  | there (f : FieldInfo) (fs : List FieldInfo) (k : String) (v : Value)
      (h : EntryOk env fs k v) : EntryOk env (f :: fs) k v
end

theorem entryOk_iff (env : DeserEnv) (fs : List FieldInfo) (k : String)
    (v : Value) :
    EntryOk env fs k v ↔ ∃ f, f ∈ fs ∧ f.name = k ∧ FieldOk env f v := by
  constructor
  · intro h
    induction fs with
    | nil => cases h
    | cons q rest ih =>
      cases h with
      | here _ _ _ _ hn hv => exact ⟨q, by simp, hn, hv⟩
      | there _ _ _ _ hsub =>
        obtain ⟨g, hg, hn, hv⟩ := ih hsub
        exact ⟨g, List.mem_cons_of_mem _ hg, hn, hv⟩
  · intro h
    obtain ⟨f, hf, hn, hv⟩ := h
    induction fs with
    | nil => simp at hf
    | cons q rest ih =>
      rcases List.mem_cons.mp hf with h' | h'
      · rw [← h']
        exact EntryOk.here f rest k v hn hv
      · exact EntryOk.there q rest k v (ih h')

/-- The per-request conclusion of the bound-enforcement induction. -/
def resOk (env : DeserEnv) : ReadReq → ReadRes → Prop
  | .rstruct info, .one v => ValOk env (.structInfo info) v
  | .runion info, .one v => ValOk env (.unionInfo info) v
  | .rfield f, .one v => FieldOk env f v
  | .rarray f _, .one v => FieldOk env f v
  | .rnested f _ _, .many vs => ∀ x ∈ vs, FieldOk env f x
  | .rcomplexLoop ci _, .many vs => ∀ x ∈ vs, ValOk env ci x
  | .rfields fds acc, .entries m =>
      ∀ k v, m.lookup k = some v →
        EntryOk env fds k v
        ∨ (acc.lookup k = some v ∧ ∀ f ∈ fds, f.name ≠ k)
  | _, _ => True

theorem dictSet_lookup_self (m : List (String × Value)) (k : String)
    (v : Value) : (dictSet m k v).lookup k = some v := by
  induction m with
  | nil => simp [dictSet, List.lookup]
  | cons q rest ih =>
    rw [dictSet]
    by_cases hk : q.1 = k
    · simp only [hk, if_pos]
      simp [List.lookup]
    · rw [if_neg hk]
      rw [List.lookup]
      have : (k == q.1) = false := by
        simp [beq_eq_false_iff_ne]
        exact fun hh => hk hh.symm
      rw [this]
      exact ih

theorem dictSet_lookup_other (m : List (String × Value)) (k k2 : String)
    (v : Value) (hne : k2 ≠ k) :
    (dictSet m k v).lookup k2 = m.lookup k2 := by
  induction m with
  | nil =>
    simp only [dictSet, List.lookup]
    have : (k2 == k) = false := by simp [beq_eq_false_iff_ne, hne]
    rw [this]
  | cons q rest ih =>
    rw [dictSet]
    by_cases hk : q.1 = k
    · simp only [hk, if_pos]
      rw [List.lookup, List.lookup]
      have h1 : (k2 == k) = false := by simp [beq_eq_false_iff_ne, hne]
      rw [hk, h1]
    · rw [if_neg hk]
      rw [List.lookup, List.lookup]
      cases hkq : k2 == q.1 with
      | true => rfl
      | false => exact ih

theorem lookup_map_name {α : Type} (fields : List FieldInfo)
    (g : FieldInfo → α) (k : String) (v : α)
    (h : (fields.map (fun f => (f.name, g f))).lookup k = some v) :
    ∃ f, f ∈ fields ∧ f.name = k := by
  induction fields with
  | nil => simp [List.lookup] at h
  | cons q rest ih =>
    simp only [List.map_cons, List.lookup] at h
    cases hkq : k == q.name with
    | true =>
      refine ⟨q, by simp, ?_⟩
      exact (eq_of_beq hkq).symm
    | false =>
      rw [hkq] at h
      obtain ⟨f, hf, hn⟩ := ih h
      exact ⟨f, List.mem_cons_of_mem _ hf, hn⟩

theorem readOneString_bound (e : Endian) (t : String) (sub : Option Nat)
    (view : Bytes) (off0 : Nat) (s : List Nat) (off2 : Nat) (log : Log)
    (h : readOneString e t sub view off0 = .ok (s, off2, log)) :
    ∀ b, sub = some b → s.length ≤ b := by
  intro b hb
  subst hb
  simp only [readOneString] at h
  split at h
  · exact Except.noConfusion h
  · split at h
    · exact Except.noConfusion h
    · split at h
      · exact Except.noConfusion h
      · rename_i hnot
        simp only [Except.ok.injEq, Prod.mk.injEq] at h
        obtain ⟨hs, _, _⟩ := h
        rw [← hs]
        omega

theorem readStringsLoop_bound (e : Endian) (t : String) (sub : Option Nat) :
    ∀ (count : Nat) (view : Bytes) (off0 : Nat) (ss : List (List Nat))
      (off2 : Nat) (log : Log),
      readStringsLoop e t sub count view off0 = .ok (ss, off2, log) →
      ∀ s ∈ ss, ∀ b, sub = some b → s.length ≤ b := by
  intro count
  induction count with
  | zero =>
    intro view off0 ss off2 log h s hs b hb
    simp only [readStringsLoop] at h
    simp only [Except.ok.injEq, Prod.mk.injEq] at h
    rw [← h.1] at hs
    simp at hs
  | succ k ih =>
    intro view off0 ss off2 log h s hs b hb
    simp only [readStringsLoop] at h
    split at h
    · exact Except.noConfusion h
    · rename_i r1 s1 off1 log1 heq1
      split at h
      · exact Except.noConfusion h
      · rename_i r2 ss2 off2' log2 heq2
        simp only [Except.ok.injEq, Prod.mk.injEq] at h
        rw [← h.1] at hs
        rcases List.mem_cons.mp hs with h' | h'
        · rw [h']
          exact readOneString_bound e t sub view off0 s1 off1 log1 heq1 b hb
        · exact ih view off1 ss2 off2' log2 heq2 s h' b hb

theorem fieldOk_vlist (env : DeserEnv) (f : FieldInfo) (vs : List Value)
    (h : ∀ x ∈ vs, FieldOk env f x) : FieldOk env f (.vlist vs) := by
  by_cases ht : f.type = "string" ∨ f.type = "wstring"
  · apply FieldOk.ofString f _ ht
    apply StrsWithin.vlist
    intro x hx
    cases h x hx with
    | ofString _ _ _ hs => exact hs
    | ofPrim _ _ htn _ => exact absurd ht htn
    | ofComplex _ _ _ htn _ _ _ => exact absurd ht htn
    | ofUnknown _ _ htn _ _ => exact absurd ht htn
  · by_cases hp : isPrimitive f.type = true
    · exact FieldOk.ofPrim f _ ht hp
    · rw [Bool.not_eq_true] at hp
      cases hci : lookupEnv env f.type with
      | some ci =>
        apply FieldOk.ofComplex f _ ci ht hp hci
        apply ValOk.listOk
        intro x hx
        cases h x hx with
        | ofString _ _ hts _ => exact absurd hts ht
        | ofPrim _ _ _ hpp => rw [hp] at hpp; exact Bool.noConfusion hpp
        | ofComplex _ _ ci2 _ _ hci2 hv =>
          rw [hci] at hci2
          injection hci2 with hh
          exact hh ▸ hv
        | ofUnknown _ _ _ _ hci2 =>
          rw [hci] at hci2
          exact Option.noConfusion hci2
      | none => exact FieldOk.ofUnknown f _ ht hp hci

theorem strCond_or (t : String)
    (h : (t = "string" || t = "wstring") = true) :
    t = "string" ∨ t = "wstring" := by
  simpa using h

theorem strCond_not (t : String)
    (h : ¬((t = "string" || t = "wstring") = true)) :
    ¬(t = "string" ∨ t = "wstring") := by
  simpa using h

theorem strsWithin_map_vstr (sub : Option Nat) (ss : List (List Nat))
    (h : ∀ s ∈ ss, ∀ b, sub = some b → s.length ≤ b) :
    StrsWithin sub (.vlist (ss.map Value.vstr)) := by
  apply StrsWithin.vlist
  intro x hx
  obtain ⟨s, hs, hxs⟩ := List.mem_map.mp hx
  rw [← hxs]
  exact StrsWithin.vstr s (h s hs)

theorem readGo_strings_ok (env : DeserEnv) (e : Endian) :
    ∀ (fuel : Nat) (req : ReadReq) (view : Bytes) (off : Nat)
      (res : ReadRes) (off2 : Nat) (log : Log),
      readGo env e fuel req view off = .ok (res, off2, log) →
      resOk env req res := by
  intro fuel
  induction fuel with
  | zero =>
    intro req view off res off2 log h
    simp only [readGo] at h
    exact Except.noConfusion h
  | succ n ih =>
    intro req view off res off2 log h
    cases req with
    | rstruct info =>
      simp only [readGo] at h
      split at h
      · exact Except.noConfusion h
      · rename_i dEnd off1 log1 hstage
        split at h
        · exact Except.noConfusion h
        · split at h
          · exact Except.noConfusion h
          · rename_i m off2' log2 hrec
            simp only [Except.ok.injEq, Prod.mk.injEq] at h
            obtain ⟨hres, hoff, hlog⟩ := h
            rw [← hres]
            have hloop := ih _ view off1 _ off2' log2 hrec
            apply ValOk.structOk
            intro k v hk
            rcases hloop k v hk with hok | ⟨hacc, hnone⟩
            · exact hok
            · exfalso
              obtain ⟨f, hf, hn⟩ :=
                lookup_map_name info.fields
                  (fun f => fieldDefault env (n + 1) f) k v hacc
              exact hnone f hf hn
          · exact Except.noConfusion h
    | runion info =>
      simp only [readGo] at h
      split at h
      · exact Except.noConfusion h
      · rename_i dEnd off1 log1 hstage
        split at h
        · exact Except.noConfusion h
        · split at h
          · exact Except.noConfusion h
          · rename_i disc off2' log2 hdisc
            split at h
            · simp only [Except.ok.injEq, Prod.mk.injEq] at h
              rw [← h.1]
              exact ValOk.unionOk info _
            · rename_i cf hcf
              split at h
              · exact Except.noConfusion h
              · rename_i v off3' log3 hcase
                simp only [Except.ok.injEq, Prod.mk.injEq] at h
                rw [← h.1]
                exact ValOk.unionOk info _
              · exact Except.noConfusion h
          · exact Except.noConfusion h
    | rfield f =>
      simp only [readGo] at h
      split at h
      · have hr := ih _ view off res off2 log h
        cases res with
        | one v => exact hr
        | many vs => trivial
        | entries m => trivial
      · split at h
        · split at h
          · exact Except.noConfusion h
          · rename_i length hlen
            split at h
            · rename_i hstr
              split at h
              · exact Except.noConfusion h
              · rename_i ss off2' log2 hloop
                simp only [Except.ok.injEq, Prod.mk.injEq] at h
                rw [← h.1]
                exact FieldOk.ofString f _ (strCond_or f.type hstr)
                  (strsWithin_map_vstr f.string_upper_bound ss
                    (readStringsLoop_bound e f.type f.string_upper_bound
                      length view _ ss off2' log2 hloop))
            · rename_i hstr
              split at h
              · rename_i hprim
                split at h
                · exact Except.noConfusion h
                · rename_i v off2' log2 hblock
                  simp only [Except.ok.injEq, Prod.mk.injEq] at h
                  rw [← h.1]
                  exact FieldOk.ofPrim f _ (strCond_not f.type hstr) hprim
              · rename_i hprim
                split at h
                · exact Except.noConfusion h
                · rename_i ci hci
                  split at h
                  · exact Except.noConfusion h
                  · rename_i vs off2' log2 hloop
                    simp only [Except.ok.injEq, Prod.mk.injEq] at h
                    rw [← h.1]
                    refine FieldOk.ofComplex f _ ci (strCond_not f.type hstr)
                      (by rw [Bool.not_eq_true] at hprim; exact hprim) hci ?_
                    exact ValOk.listOk ci vs (ih _ view _ _ off2' log2 hloop)
                  · exact Except.noConfusion h
        · split at h
          · rename_i hstr
            split at h
            · exact Except.noConfusion h
            · rename_i s off1 log1 hone
              simp only [Except.ok.injEq, Prod.mk.injEq] at h
              rw [← h.1]
              exact FieldOk.ofString f _ (strCond_or f.type hstr)
                (StrsWithin.vstr s
                  (readOneString_bound e f.type f.string_upper_bound view
                    off s off1 log1 hone))
          · rename_i hstr
            split at h
            · rename_i hprim
              split at h
              · exact Except.noConfusion h
              · rename_i v off1 log1 hpf
                simp only [Except.ok.injEq, Prod.mk.injEq] at h
                rw [← h.1]
                exact FieldOk.ofPrim f _ (strCond_not f.type hstr) hprim
            · rename_i hprim
              split at h
              · exact Except.noConfusion h
              · rename_i s hci
                have hr := ih _ view off res off2 log h
                cases res with
                | one v =>
                  exact FieldOk.ofComplex f v _ (strCond_not f.type hstr)
                    (by rw [Bool.not_eq_true] at hprim; exact hprim) hci hr
                | many vs => trivial
                | entries m => trivial
              · rename_i u hci
                have hr := ih _ view off res off2 log h
                cases res with
                | one v =>
                  exact FieldOk.ofComplex f v _ (strCond_not f.type hstr)
                    (by rw [Bool.not_eq_true] at hprim; exact hprim) hci hr
                | many vs => trivial
                | entries m => trivial
    | rarray f lengths =>
      cases lengths with
      | nil =>
        simp only [readGo] at h
        exact Except.noConfusion h
      | cons nn rest =>
        simp only [readGo] at h
        split at h
        · split at h
          · rename_i hstr
            split at h
            · exact Except.noConfusion h
            · rename_i ss off1 log1 hloop
              simp only [Except.ok.injEq, Prod.mk.injEq] at h
              rw [← h.1]
              exact FieldOk.ofString f _ (strCond_or f.type hstr)
                (strsWithin_map_vstr f.string_upper_bound ss
                  (readStringsLoop_bound e f.type f.string_upper_bound nn
                    view off ss off1 log1 hloop))
          · rename_i hstr
            split at h
            · rename_i hprim
              split at h
              · exact Except.noConfusion h
              · rename_i v off1 log1 hblock
                simp only [Except.ok.injEq, Prod.mk.injEq] at h
                rw [← h.1]
                exact FieldOk.ofPrim f _ (strCond_not f.type hstr) hprim
            · rename_i hprim
              split at h
              · exact Except.noConfusion h
              · rename_i ci hci
                split at h
                · exact Except.noConfusion h
                · rename_i vs off1 log1 hloop
                  simp only [Except.ok.injEq, Prod.mk.injEq] at h
                  rw [← h.1]
                  refine FieldOk.ofComplex f _ ci (strCond_not f.type hstr)
                    (by rw [Bool.not_eq_true] at hprim; exact hprim) hci ?_
                  exact ValOk.listOk ci vs (ih _ view off _ off1 log1 hloop)
                · exact Except.noConfusion h
        · split at h
          · exact Except.noConfusion h
          · rename_i vs off1 log1 hnest
            simp only [Except.ok.injEq, Prod.mk.injEq] at h
            rw [← h.1]
            exact fieldOk_vlist env f vs (ih _ view off _ off1 log1 hnest)
          · exact Except.noConfusion h
    | rfields fds acc =>
      cases fds with
      | nil =>
        simp only [readGo] at h
        simp only [Except.ok.injEq, Prod.mk.injEq] at h
        rw [← h.1]
        intro k v hk
        exact Or.inr ⟨hk, by intro f hf; simp at hf⟩
      | cons fld rest =>
        simp only [readGo] at h
        split at h
        · exact Except.noConfusion h
        · rename_i v off1 log1 hfld
          have hfok : FieldOk env fld v := ih _ view off _ off1 log1 hfld
          split at h
          · exact Except.noConfusion h
          · rename_i m2 off2' log2 hrest
            have hloop := ih _ view off1 _ off2' log2 hrest
            simp only [Except.ok.injEq, Prod.mk.injEq] at h
            rw [← h.1]
            intro k v2 hk
            rcases hloop k v2 hk with hok | ⟨hacc, hnone⟩
            · exact Or.inl (EntryOk.there fld rest k v2 hok)
            · by_cases hkf : k = fld.name
              · rw [hkf, dictSet_lookup_self] at hacc
                injection hacc with hv2
                refine Or.inl (EntryOk.here fld rest k v2 hkf.symm ?_)
                rw [← hv2]
                exact hfok
              · rw [dictSet_lookup_other acc fld.name k v hkf] at hacc
                refine Or.inr ⟨hacc, ?_⟩
                intro f hf
                rcases List.mem_cons.mp hf with h' | h'
                · rw [h']
                  exact fun hh => hkf hh.symm
                · exact hnone f h'
          · exact Except.noConfusion h
        · exact Except.noConfusion h
    | rcomplexLoop ci count =>
      cases count with
      | zero =>
        simp only [readGo] at h
        simp only [Except.ok.injEq, Prod.mk.injEq] at h
        rw [← h.1]
        intro x hx
        simp at hx
      | succ k =>
        cases ci with
        | structInfo s =>
          simp only [readGo] at h
          split at h
          · exact Except.noConfusion h
          · rename_i v off1 log1 helem
            have he : ValOk env (.structInfo s) v := ih _ view off _ off1 log1 helem
            split at h
            · exact Except.noConfusion h
            · rename_i vs off2' log2 hrest
              have hr := ih _ view off1 _ off2' log2 hrest
              simp only [Except.ok.injEq, Prod.mk.injEq] at h
              rw [← h.1]
              intro x hx
              rcases List.mem_cons.mp hx with h' | h'
              · rw [h']; exact he
              · exact hr x h'
            · exact Except.noConfusion h
          · exact Except.noConfusion h
        | unionInfo u =>
          simp only [readGo] at h
          split at h
          · exact Except.noConfusion h
          · rename_i v off1 log1 helem
            have he : ValOk env (.unionInfo u) v := ih _ view off _ off1 log1 helem
            split at h
            · exact Except.noConfusion h
            · rename_i vs off2' log2 hrest
              have hr := ih _ view off1 _ off2' log2 hrest
              simp only [Except.ok.injEq, Prod.mk.injEq] at h
              rw [← h.1]
              intro x hx
              rcases List.mem_cons.mp hx with h' | h'
              · rw [h']; exact he
              · exact hr x h'
            · exact Except.noConfusion h
          · exact Except.noConfusion h
    | rnested f lengths count =>
      cases count with
      | zero =>
        simp only [readGo] at h
        simp only [Except.ok.injEq, Prod.mk.injEq] at h
        rw [← h.1]
        intro x hx
        simp at hx
      | succ k =>
        simp only [readGo] at h
        split at h
        · exact Except.noConfusion h
        · rename_i v off1 log1 helem
          have he := ih _ view off _ off1 log1 helem
          split at h
          · exact Except.noConfusion h
          · rename_i vs off2' log2 hrest
            have hr := ih _ view off1 _ off2' log2 hrest
            simp only [Except.ok.injEq, Prod.mk.injEq] at h
            rw [← h.1]
            intro x hx
            rcases List.mem_cons.mp hx with h' | h'
            · rw [h']
              cases hres : (ReadRes.one v) with
              | one vv => exact he
              | many vv => exact absurd hres (by simp)
              | entries vv => exact absurd hres (by simp)
            · exact hr x h'
          · exact Except.noConfusion h
        · exact Except.noConfusion h

/-- C7: `read_message` never returns a result containing an over-long
string.  On success the returned map satisfies the plan-wide guarantee
`ValOk` — every entry of every decoded struct dict, including structs
nested through fields, arrays and sequences, is the value decoded for a
plan field of that name and respects that field's
`string_upper_bound` — and, spelled out for the root fields: a string or
wstring field with a declared bound never maps to a string whose
character count exceeds the bound (the reader raises `ValueError`
instead of returning such a value). -/
theorem read_message_enforces_string_bounds
    (st : ReaderState) (buffer : Bytes) (fuel : Nat)
    (m : List (String × Value)) (st' : ReaderState)
    (hnd : (st.root_info.fields.map (fun f => f.name)).Nodup)
    (h : readMessage st buffer fuel = (.ok (.vdict m), st')) :
    ValOk st.cache (.structInfo st.root_info) (.vdict m)
    ∧ ∀ f ∈ st.root_info.fields, (f.type = "string" ∨ f.type = "wstring") →
      ∀ b cps, f.string_upper_bound = some b →
        m.lookup f.name = some (.vstr cps) → cps.length ≤ b := by
  unfold readMessage at h
  cases hb : buffer.get? 1 with
  | none =>
    rw [hb] at h
    dsimp only at h
    simp only [Prod.mk.injEq] at h
    exact Except.noConfusion h.1
  | some code =>
    rw [hb] at h
    dsimp only at h
    by_cases hk : ENCAPSULATION_KINDS.contains code = true
    · rw [if_pos hk] at h
      simp only [Prod.mk.injEq] at h
      obtain ⟨h1, h2⟩ := h
      split at h1
      · exact Except.noConfusion h1
      · rename_i v o lg hgo
        injection h1 with hv
        rw [hv] at hgo
        have hval := readGo_strings_ok st.cache
          (if LITTLE_ENDIAN_KINDS.contains code then Endian.le else Endian.be)
          fuel (.rstruct st.root_info) buffer 4 _ o lg hgo
        refine ⟨hval, ?_⟩
        intro f hf ht b cps hbb hlk
        cases hval with
        | structOk _ _ hentry =>
          have he := (entryOk_iff st.cache st.root_info.fields f.name
            (.vstr cps)).mp (hentry f.name (.vstr cps) hlk)
          obtain ⟨f2, hf2, hn2, hok⟩ := he
          have hf2f : f2 = f :=
            List.inj_on_of_nodup_map hnd hf2 hf hn2
          rw [hf2f] at hok
          cases hok with
          | ofString _ _ _ hs =>
            cases hs with
            | vstr _ hbnd => exact hbnd b hbb
          | ofPrim _ _ htn _ => exact absurd ht htn
          | ofComplex _ _ _ htn _ _ _ => exact absurd ht htn
          | ofUnknown _ _ htn _ _ => exact absurd ht htn
      · exact Except.noConfusion h1
    · rw [if_neg hk] at h
      simp only [Prod.mk.injEq] at h
      exact Except.noConfusion h.1

/-- Witness for `read_message_enforces_string_bounds` on the spec's S3
example `struct A { string<5> name; }` with value `"hello"`. -/
theorem read_message_enforces_string_bounds_witness :
    ValOk ([] : DeserEnv)
        (.structInfo ⟨"A", false, false,
          [⟨"name", "string", 1, false, none, false, none, some 5, none⟩]⟩)
        (.vdict [("name", .vstr [104, 101, 108, 108, 111])])
    ∧ ∀ f ∈ [(⟨"name", "string", 1, false, none, false, none, some 5,
          none⟩ : FieldInfo)],
        (f.type = "string" ∨ f.type = "wstring") →
        ∀ b cps, f.string_upper_bound = some b →
          ([("name", Value.vstr [104, 101, 108, 108, 111])].lookup f.name)
            = some (.vstr cps) →
          cps.length ≤ b :=
  read_message_enforces_string_bounds
    ⟨[], ⟨"A", false, false,
      [⟨"name", "string", 1, false, none, false, none, some 5, none⟩]⟩,
      .le, 1⟩
    [0, 1, 0, 0, 6, 0, 0, 0, 104, 101, 108, 108, 111, 0] 9
    [("name", .vstr [104, 101, 108, 108, 111])]
    ⟨[], ⟨"A", false, false,
      [⟨"name", "string", 1, false, none, false, none, some 5, none⟩]⟩,
      .le, 1⟩
    (by decide) rfl
